import Mathlib

/-!
# Declaration scanner (`DFAAnalyzer`) of `src/main.cpp`

A shallow embedding of the character-by-character automaton that validates
`type identifier [= expression];` statements, and of its driving loop
`DFAAnalyzer::analyze`.

Modelling conventions.

* A C++ `char` is a Lean `Char`; a byte `b` of the file is the character with
  code `b`.  Every theorem quantifies over all characters, hence over all bytes.
* `std::string` is `String`; `std::set<std::string>` is `Finset String`.
* The file is either absent (`none`, the stream fails to open) or a finite
  character stream (`some cs`).  The stream is read as on a POSIX system: no
  translation of line terminators takes place below `std::getline`.
* `int currentLine`, `int currentPos` are natural numbers; the counters of the
  source do not leave the range of `int` for inputs shorter than `2^31`
  characters.
-/

namespace DFA

/-- The `enum State` of the class. -/
inductive State where
  | Q0 | Q1 | Q2 | Q3 | Q4 | Q5 | Q6 | Q_ERROR
  deriving DecidableEq, Repr

/-- The `struct AnalysisResult`. -/
structure AnalysisResult where
  success : Bool
  message : String
  line : Nat
  position : Nat
  duplicateName : String
  deriving DecidableEq, Repr

/-- The mutable fields of `class DFAAnalyzer`.  The three character tables are
constants filled by the constructor; `validTypeChars` and `validIdChars` are
given below as predicates and `operators` is never read. -/
structure DFAAnalyzer where
  currentState : State
  declaredVariables : Finset String
  currentLine : Nat
  currentPos : Nat
  currentIdentifier : String
  duplicateVarName : String
  currentType : String
  deriving DecidableEq

/-- Membership in the set `validTypeChars` built by the constructor:
`a..z`, `A..Z`, `0..9` and `_`. -/
def validTypeChars (c : Char) : Bool :=
  ('a' ≤ c && c ≤ 'z') || ('A' ≤ c && c ≤ 'Z') || ('0' ≤ c && c ≤ '9') || c == '_'

/-- The constructor copies the table: `validIdChars = validTypeChars`. -/
def validIdChars (c : Char) : Bool := validTypeChars c

/-- The test `(c >= 'a' && c <= 'z') || (c >= 'A' && c <= 'Z') || c == '_'`
written out in the cases `Q0`, `Q2` and `Q6` of `processChar`. -/
def isStartChar (c : Char) : Bool :=
  ('a' ≤ c && c ≤ 'z') || ('A' ≤ c && c ≤ 'Z') || c == '_'

/-- `DFAAnalyzer::isWhitespace`. -/
def isWhitespace (c : Char) : Bool :=
  c == ' ' || c == '\t' || c == '\n' || c == '\r'

/-- `DFAAnalyzer::reset`: the state right after construction. -/
def reset : DFAAnalyzer :=
  { currentState := State.Q0
    declaredVariables := ∅
    currentLine := 1
    currentPos := 1
    currentIdentifier := ""
    duplicateVarName := ""
    currentType := "" }

/-- `DFAAnalyzer::checkForDuplicate`. -/
def checkForDuplicate (a : DFAAnalyzer) : DFAAnalyzer :=
  if a.currentIdentifier ∈ a.declaredVariables then
    { a with duplicateVarName := a.currentIdentifier, currentState := State.Q_ERROR }
  else a

/-- `DFAAnalyzer::processChar`. -/
def processChar (a : DFAAnalyzer) (c : Char) : DFAAnalyzer :=
  match a.currentState with
  | State.Q0 =>
    if isWhitespace c then a
    else if isStartChar c then
      { a with currentState := State.Q1, currentType := a.currentType.push c }
    else { a with currentState := State.Q_ERROR }
  | State.Q1 =>
    if isWhitespace c then { a with currentState := State.Q2 }
    else if c = ';' ∨ c = '=' then { a with currentState := State.Q_ERROR }
    else if validTypeChars c then { a with currentType := a.currentType.push c }
    else { a with currentState := State.Q_ERROR }
  | State.Q2 =>
    if isWhitespace c then a
    else if isStartChar c then
      { a with currentState := State.Q3, currentIdentifier := a.currentIdentifier.push c }
    else { a with currentState := State.Q_ERROR }
  | State.Q3 =>
    if isWhitespace c then
      checkForDuplicate { a with currentState := State.Q4 }
    else if c = ';' then
      let b := checkForDuplicate a
      if b.currentState ≠ State.Q_ERROR then
        { b with declaredVariables := insert b.currentIdentifier b.declaredVariables,
                 currentState := State.Q6,
                 currentIdentifier := "",
                 currentType := "" }
      else b
    else if c = '=' then
      let b := checkForDuplicate a
      if b.currentState ≠ State.Q_ERROR then
        { b with declaredVariables := insert b.currentIdentifier b.declaredVariables,
                 currentState := State.Q5,
                 currentIdentifier := "" }
      else b
    else if validIdChars c then
      { a with currentIdentifier := a.currentIdentifier.push c }
    else { a with currentState := State.Q_ERROR }
  | State.Q4 =>
    if isWhitespace c then a
    else if c = ';' then
      { a with currentState := State.Q6, currentIdentifier := "", currentType := "" }
    else if c = '=' then
      { a with currentState := State.Q5, currentIdentifier := "" }
    else { a with currentState := State.Q_ERROR }
  | State.Q5 =>
    if c = ';' then { a with currentState := State.Q6, currentType := "" }
    else if c = '\n' then { a with currentState := State.Q_ERROR }
    else a
  | State.Q6 =>
    if isWhitespace c then
      if c = '\n' then { a with currentState := State.Q0 } else a
    else if isStartChar c then
      { a with currentState := State.Q1, currentType := a.currentType.push c }
    else { a with currentState := State.Q_ERROR }
  | State.Q_ERROR => a

/-- The sequence of lines that the condition `while (std::getline(file, line))`
delivers, from the rest of the stream and the characters `line` that the call
in progress has extracted so far.  A line feed ends the call: it is consumed
and not stored.  At the end of the stream a call that has extracted nothing
fails, which ends the loop; a call that has extracted characters succeeds. -/
def getLinesFrom (line : List Char) : List Char → List (List Char)
  | [] => if line = [] then [] else [line]
  | c :: cs =>
    if c = '\n' then line :: getLinesFrom [] cs else getLinesFrom (line ++ [c]) cs

/-- The lines read from a stream by successive calls of `std::getline`. -/
def getLines (cs : List Char) : List (List Char) := getLinesFrom [] cs

/-- The body of `for (char c : line)` of `analyze`, from the character at
which the loop stands.  `Except.error` is the `return` inside the loop. -/
def scanChars (a : DFAAnalyzer) (hasContent : Bool) :
    List Char → Except (AnalysisResult × DFAAnalyzer) (DFAAnalyzer × Bool)
  | [] => Except.ok (a, hasContent)
  | c :: cs =>
    let hasContent := if !isWhitespace c then true else hasContent
    let a := processChar a c
    if a.currentState = State.Q_ERROR then
      if a.duplicateVarName ≠ "" then
        Except.error
          ({ success := false, message := "Duplicate variable name",
             line := a.currentLine, position := a.currentPos,
             duplicateName := a.duplicateVarName }, a)
      else
        Except.error
          ({ success := false, message := "Syntax error",
             line := a.currentLine, position := a.currentPos,
             duplicateName := "" }, a)
    else
      scanChars { a with currentPos := a.currentPos + 1 } hasContent cs

/-- The loop `while (std::getline(file, line))` of `analyze` over the lines
still to be read. -/
def scanLines (a : DFAAnalyzer) :
    List (List Char) → Except (AnalysisResult × DFAAnalyzer) DFAAnalyzer
  | [] => Except.ok a
  | line :: rest =>
    match scanChars { a with currentPos := 0 } false line with
    | Except.error r => Except.error r
    | Except.ok (a, hasContent) =>
      if hasContent ∧ a.currentState ≠ State.Q6 ∧ a.currentState ≠ State.Q0
          ∧ a.currentState ≠ State.Q_ERROR then
        Except.error
          ({ success := false, message := "Missing semicolon at end of line",
             line := a.currentLine, position := a.currentPos,
             duplicateName := "" }, a)
      else
        let a := processChar a '\n'
        scanLines { a with currentLine := a.currentLine + 1 } rest

/-- `DFAAnalyzer::analyze`, on the file it opens: the result it returns and
the analyzer it leaves behind. -/
def analyze (a : DFAAnalyzer) (file : Option (List Char)) : AnalysisResult × DFAAnalyzer :=
  match file with
  | none =>
    ({ success := false, message := "Cannot open input file",
       line := 0, position := 0, duplicateName := "" }, a)
  | some cs =>
    match scanLines { a with currentLine := 1 } (getLines cs) with
    | Except.error r => r
    | Except.ok a =>
      if a.currentState = State.Q6 ∨ a.currentState = State.Q0 then
        ({ success := true, message := "Correct variable declaration",
           line := 0, position := 0, duplicateName := "" }, a)
      else
        ({ success := false, message := "Unexpected end of input",
           line := a.currentLine, position := a.currentPos,
           duplicateName := "" }, a)

/-- A scan of the character stream `input` by a freshly constructed analyzer:
the result that `analyze` returns. -/
def scan (input : List Char) : AnalysisResult := (analyze reset (some input)).1

/-- The analyzer that a scan of `input` from the reset state leaves behind. -/
def scanFinal (input : List Char) : DFAAnalyzer := (analyze reset (some input)).2

/-! ## Notions used to state the properties -/

/-- The analyzer after `processChar` has consumed the characters `cs` in order. -/
def feed (a : DFAAnalyzer) (cs : List Char) : DFAAnalyzer := cs.foldl processChar a

/-- The analyzer `a` with its cursor at line `ln`, position `ps`. -/
def withCursor (a : DFAAnalyzer) (ln ps : Nat) : DFAAnalyzer :=
  { a with currentLine := ln, currentPos := ps }

/-- The value that the error `return` inside the character loop of `analyze`
yields when the analyzer has become `a`. -/
def failAt (a : DFAAnalyzer) : AnalysisResult :=
  if a.duplicateVarName ≠ "" then
    { success := false, message := "Duplicate variable name",
      line := a.currentLine, position := a.currentPos,
      duplicateName := a.duplicateVarName }
  else
    { success := false, message := "Syntax error",
      line := a.currentLine, position := a.currentPos, duplicateName := "" }

/-- A line has content when one of its characters is not whitespace. -/
def hasContentOf (l : List Char) : Bool := l.any (fun c => !isWhitespace c)

/-- Every line of `ls`, consumed in turn from the analyzer `a` and followed by
the line feed that `analyze` supplies, leaves the automaton in `Q0` or `Q6` at
its end. -/
def LinesPass (a : DFAAnalyzer) : List (List Char) → Prop
  | [] => True
  | l :: ls =>
    ((feed a l).currentState = State.Q0 ∨ (feed a l).currentState = State.Q6) ∧
      LinesPass (processChar (feed a l) '\n') ls

/-- The text whose physical lines are `ls`, each ended by a line feed. -/
def unlines : List (List Char) → List Char
  | [] => []
  | l :: ls => l ++ '\n' :: unlines ls

/-- The lines that a final part `last` of the text without line feed adds:
none when it is empty, itself otherwise. -/
def lastLines (last : List Char) : List (List Char) := if last = [] then [] else [last]

/-- The value that `analyze` returns on success. -/
def okResult : AnalysisResult :=
  { success := true, message := "Correct variable declaration",
    line := 0, position := 0, duplicateName := "" }

/-- The value that the end-of-line check of `analyze` returns when it fails on
line `ln`, the line being `len` characters long. -/
def missingAt (ln len : Nat) : AnalysisResult :=
  { success := false, message := "Missing semicolon at end of line",
    line := ln, position := len, duplicateName := "" }

/-- The set `declaredVariables` after the analyzer `a` has consumed a
declaration of `id` whose identifier is followed by the blanks `ws₂`: the
identifier is inserted when its terminator follows it directly. -/
def declaredAfter (a : DFAAnalyzer) (id ws₂ : List Char) : Finset String :=
  if ws₂ = [] then insert (String.mk id) a.declaredVariables else a.declaredVariables

/-- A word of the form `[A-Za-z_][A-Za-z0-9_]*`. -/
def IsName (w : List Char) : Prop :=
  ∃ c cs, w = c :: cs ∧ isStartChar c = true ∧ ∀ d ∈ cs, validIdChars d = true

/-- A run of spaces, tabs and carriage returns (possibly empty). -/
def Blank (w : List Char) : Prop := ∀ c ∈ w, c = ' ' ∨ c = '\t' ∨ c = '\r'

/-- The text of an expression: free of `;` and of line feeds. -/
def IsExpr (e : List Char) : Prop := ∀ c ∈ e, c ≠ ';' ∧ c ≠ '\n'

/-- `Statement id s`: the text `s` is one declaration of the identifier `id`,
either `type id ;` or `type id = expr ;`, with at least one blank between type
and identifier and optional blanks before `;` and `=`. -/
inductive Statement : List Char → List Char → Prop where
  | plain (ty ws₁ id ws₂ : List Char) :
      IsName ty → Blank ws₁ → ws₁ ≠ [] → IsName id → Blank ws₂ →
      Statement id (ty ++ ws₁ ++ id ++ ws₂ ++ [';'])
  | init (ty ws₁ id ws₂ e : List Char) :
      IsName ty → Blank ws₁ → ws₁ ≠ [] → IsName id → Blank ws₂ → IsExpr e →
      Statement id (ty ++ ws₁ ++ id ++ ws₂ ++ '=' :: e ++ [';'])

/-- `Line ids l`: the text `l` is a sequence of zero or more declarations, of
the identifiers `ids` in this order, with optional blanks before, between and
after them. -/
inductive Line : List (List Char) → List Char → Prop where
  | blank (ws : List Char) : Blank ws → Line [] ws
  | cons (ws id s : List Char) (ids : List (List Char)) (rest : List Char) :
      Blank ws → Statement id s → Line ids rest → Line (id :: ids) (ws ++ s ++ rest)

/-- What the automaton has consumed of the current line when it stands in a
given state: `Consumed st w` says that the text `w` consists of complete
declarations followed by the part of a declaration that the state `st`
stands for. -/
def Consumed : State → List Char → Prop
  | State.Q0, w => Blank w
  | State.Q1, w => ∃ ids pre ty, w = pre ++ ty ∧ Line ids pre ∧ IsName ty
  | State.Q2, w => ∃ ids pre ty ws₁, w = pre ++ ty ++ ws₁ ∧ Line ids pre ∧ IsName ty ∧
      Blank ws₁ ∧ ws₁ ≠ []
  | State.Q3, w => ∃ ids pre ty ws₁ id, w = pre ++ ty ++ ws₁ ++ id ∧ Line ids pre ∧ IsName ty ∧
      Blank ws₁ ∧ ws₁ ≠ [] ∧ IsName id
  | State.Q4, w => ∃ ids pre ty ws₁ id ws₂, w = pre ++ ty ++ ws₁ ++ id ++ ws₂ ∧ Line ids pre ∧
      IsName ty ∧ Blank ws₁ ∧ ws₁ ≠ [] ∧ IsName id ∧ Blank ws₂
  | State.Q5, w => ∃ ids pre ty ws₁ id ws₂ e, w = pre ++ ty ++ ws₁ ++ id ++ ws₂ ++ '=' :: e ∧
      Line ids pre ∧ IsName ty ∧ Blank ws₁ ∧ ws₁ ≠ [] ∧ IsName id ∧ Blank ws₂ ∧ IsExpr e
  | State.Q6, w => ∃ ids, Line ids w
  | State.Q_ERROR, _ => True

/-- The accumulators are live only in their own states: `currentIdentifier` is
non-empty only in `Q3`, `Q4` and `Q_ERROR`, and in `Q0` and `Q6` both
`currentType` and `currentIdentifier` are empty. -/
def FieldsInv (a : DFAAnalyzer) : Prop :=
  (a.currentIdentifier ≠ "" →
    a.currentState = State.Q3 ∨ a.currentState = State.Q4 ∨
      a.currentState = State.Q_ERROR) ∧
  (a.currentState = State.Q0 ∨ a.currentState = State.Q6 →
    a.currentType = "" ∧ a.currentIdentifier = "")

/-- `CommittedIn n text`: the text holds a committed declaration of `n`: behind
well-formed lines `L` and well-formed declarations `w` of the same line come a
type, blanks, the identifier `n` and, directly after it, `;` or `=`. -/
def CommittedIn (n : List Char) (text : List Char) : Prop :=
  ∃ (L : List (List Char)) (w ty ws₁ : List Char) (t : Char) (v : List Char),
    text = unlines L ++ (w ++ ty ++ ws₁ ++ n ++ [t]) ++ v ∧
    (∀ l ∈ L, ∃ ids, Line ids l) ∧ (∃ ids, Line ids w) ∧
    IsName ty ∧ Blank ws₁ ∧ ws₁ ≠ [] ∧ (t = ';' ∨ t = '=')

/-- What holds of the analyzer `a` after it has consumed the lines `L` and, of
the current line, the text `w`: the lines are well formed, `w` is described by
the automaton state, the accumulators are live in their range, no duplicate
is recorded outside `Q_ERROR`, in `Q3` the text `w` ends with
`currentIdentifier` in identifier position, and every declared name was
committed in the text consumed (in `Q3`: before the identifier being read). -/
def ScanInv (a : DFAAnalyzer) (L : List (List Char)) (w : List Char) : Prop :=
  (∀ l ∈ L, ∃ ids, Line ids l) ∧
  Consumed a.currentState w ∧
  FieldsInv a ∧
  (a.currentState ≠ State.Q_ERROR → a.duplicateVarName = "") ∧
  (a.currentState = State.Q3 →
    ∃ ids pre ty ws₁ id, w = pre ++ ty ++ ws₁ ++ id ∧ Line ids pre ∧ IsName ty ∧
      Blank ws₁ ∧ ws₁ ≠ [] ∧ IsName id ∧ a.currentIdentifier = String.mk id ∧
      ∀ n ∈ a.declaredVariables, CommittedIn n.data (unlines L ++ (pre ++ ty ++ ws₁))) ∧
  (∀ n ∈ a.declaredVariables, CommittedIn n.data (unlines L ++ w))

/-! ## The automaton: frame and absorption -/

theorem processChar_of_error (a : DFAAnalyzer) (c : Char)
    (h : a.currentState = State.Q_ERROR) : processChar a c = a := by
  unfold processChar
  rw [h]

theorem feed_nil (a : DFAAnalyzer) : feed a [] = a := rfl

theorem feed_cons (a : DFAAnalyzer) (c : Char) (cs : List Char) :
    feed a (c :: cs) = feed (processChar a c) cs := rfl

theorem feed_append (a : DFAAnalyzer) (xs ys : List Char) :
    feed a (xs ++ ys) = feed (feed a xs) ys := by
  simp [feed, List.foldl_append]

theorem feed_of_error (a : DFAAnalyzer) (cs : List Char)
    (h : a.currentState = State.Q_ERROR) : feed a cs = a := by
  induction cs with
  | nil => rfl
  | cons c cs ih => rw [feed_cons, processChar_of_error a c h, ih]

theorem processChar_line (a : DFAAnalyzer) (c : Char) :
    (processChar a c).currentLine = a.currentLine := by
  unfold processChar checkForDuplicate
  dsimp only
  repeat' split
  all_goals rfl

theorem processChar_pos (a : DFAAnalyzer) (c : Char) :
    (processChar a c).currentPos = a.currentPos := by
  unfold processChar checkForDuplicate
  dsimp only
  repeat' split
  all_goals rfl

theorem processChar_withCursor (a : DFAAnalyzer) (ln ps : Nat) (c : Char) :
    processChar (withCursor a ln ps) c = withCursor (processChar a c) ln ps := by
  unfold processChar checkForDuplicate withCursor
  dsimp only
  repeat' split
  all_goals rfl

theorem feed_withCursor (a : DFAAnalyzer) (ln ps : Nat) (cs : List Char) :
    feed (withCursor a ln ps) cs = withCursor (feed a cs) ln ps := by
  induction cs generalizing a with
  | nil => rfl
  | cons c cs ih => rw [feed_cons, feed_cons, processChar_withCursor, ih]

@[simp] theorem withCursor_state (a : DFAAnalyzer) (ln ps : Nat) :
    (withCursor a ln ps).currentState = a.currentState := rfl

@[simp] theorem withCursor_declared (a : DFAAnalyzer) (ln ps : Nat) :
    (withCursor a ln ps).declaredVariables = a.declaredVariables := rfl

@[simp] theorem withCursor_dup (a : DFAAnalyzer) (ln ps : Nat) :
    (withCursor a ln ps).duplicateVarName = a.duplicateVarName := rfl

@[simp] theorem withCursor_line (a : DFAAnalyzer) (ln ps : Nat) :
    (withCursor a ln ps).currentLine = ln := rfl

@[simp] theorem withCursor_pos (a : DFAAnalyzer) (ln ps : Nat) :
    (withCursor a ln ps).currentPos = ps := rfl

@[simp] theorem withCursor_withCursor (a : DFAAnalyzer) (ln ps ln2 ps2 : Nat) :
    withCursor (withCursor a ln ps) ln2 ps2 = withCursor a ln2 ps2 := rfl

theorem withCursor_self (a : DFAAnalyzer) :
    withCursor a a.currentLine a.currentPos = a := rfl

theorem state_ne_error_of_feed (a : DFAAnalyzer) (cs : List Char)
    (h : (feed a cs).currentState ≠ State.Q_ERROR) : a.currentState ≠ State.Q_ERROR := by
  intro he
  rw [feed_of_error a cs he] at h
  exact h he

/-! ## The character loop in terms of `feed` -/

theorem scanChars_ok (a : DFAAnalyzer) (ln ps : Nat) (hc : Bool) (l : List Char)
    (h : (feed a l).currentState ≠ State.Q_ERROR) :
    scanChars (withCursor a ln ps) hc l =
      Except.ok (withCursor (feed a l) ln (ps + l.length), hc || hasContentOf l) := by
  induction l generalizing a ps hc with
  | nil => simp [scanChars, feed_nil, hasContentOf]
  | cons c cs ih =>
    rw [feed_cons] at h
    have hb := state_ne_error_of_feed _ _ h
    unfold scanChars
    simp only [processChar_withCursor, withCursor_state, hb, if_false]
    have := ih (processChar a c) (ps + 1) (if (!isWhitespace c) = true then true else hc) h
    change scanChars (withCursor (processChar a c) ln (ps + 1)) _ cs = _
    rw [this, feed_cons]
    have e1 : ps + 1 + cs.length = ps + (c :: cs).length := by simp; omega
    rw [e1]
    congr 2
    cases hw : isWhitespace c <;> cases hc <;> simp [hasContentOf, hw]

theorem scanChars_err (a : DFAAnalyzer) (ln ps : Nat) (hc : Bool) (p : List Char) (c : Char)
    (q : List Char) (h1 : (feed a p).currentState ≠ State.Q_ERROR)
    (h2 : (feed a (p ++ [c])).currentState = State.Q_ERROR) :
    scanChars (withCursor a ln ps) hc (p ++ c :: q) =
      Except.error (failAt (withCursor (feed a (p ++ [c])) ln (ps + p.length)),
        withCursor (feed a (p ++ [c])) ln (ps + p.length)) := by
  induction p generalizing a ps hc with
  | nil =>
    simp only [List.nil_append, feed_cons, feed_nil] at h2 ⊢
    unfold scanChars
    simp only [processChar_withCursor, withCursor_state, h2, if_true, failAt, withCursor_dup,
      withCursor_line, withCursor_pos, List.length_nil, Nat.add_zero]
    split <;> rfl
  | cons d p ih =>
    rw [feed_cons] at h1
    rw [List.cons_append, feed_cons] at h2
    have hb := state_ne_error_of_feed _ _ h1
    rw [List.cons_append]
    unfold scanChars
    simp only [processChar_withCursor, withCursor_state, hb, if_false]
    have := ih (processChar a d) (ps + 1) (if (!isWhitespace d) = true then true else hc) h1 h2
    change scanChars (withCursor (processChar a d) ln (ps + 1)) _ (p ++ c :: q) = _
    rw [this]
    have e1 : ps + 1 + p.length = ps + (d :: p).length := by simp; omega
    rw [e1, List.cons_append, feed_cons]

/-- The first character at which a run of the automaton enters `Q_ERROR`. -/
theorem first_error (a : DFAAnalyzer) (l : List Char)
    (h0 : a.currentState ≠ State.Q_ERROR)
    (h : (feed a l).currentState = State.Q_ERROR) :
    ∃ p c q, l = p ++ c :: q ∧ (feed a p).currentState ≠ State.Q_ERROR ∧
      (feed a (p ++ [c])).currentState = State.Q_ERROR := by
  induction l generalizing a with
  | nil => exact absurd h h0
  | cons d l ih =>
    by_cases hd : (processChar a d).currentState = State.Q_ERROR
    · exact ⟨[], d, l, rfl, h0, hd⟩
    · obtain ⟨p, c, q, hl, hp, hq⟩ := ih (processChar a d) hd h
      exact ⟨d :: p, c, q, by rw [hl]; rfl, hp, hq⟩

/-! ## The line loop in terms of `feed` -/

theorem scanLines_cons_eq (a : DFAAnalyzer) (l : List Char) (rest : List (List Char)) :
    scanLines a (l :: rest) =
      match scanChars { a with currentPos := 0 } false l with
      | Except.error r => Except.error r
      | Except.ok (a, hasContent) =>
        if hasContent ∧ a.currentState ≠ State.Q6 ∧ a.currentState ≠ State.Q0
            ∧ a.currentState ≠ State.Q_ERROR then
          Except.error
            ({ success := false, message := "Missing semicolon at end of line",
               line := a.currentLine, position := a.currentPos,
               duplicateName := "" }, a)
        else
          scanLines { processChar a '\n' with
            currentLine := (processChar a '\n').currentLine + 1 } rest := by
  rw [scanLines]

theorem scanLines_pass (a : DFAAnalyzer) (ln ps : Nat) (l : List Char) (rest : List (List Char))
    (h : (feed a l).currentState = State.Q0 ∨ (feed a l).currentState = State.Q6) :
    scanLines (withCursor a ln ps) (l :: rest) =
      scanLines (withCursor (processChar (feed a l) '\n') (ln + 1) l.length) rest := by
  have hne : (feed a l).currentState ≠ State.Q_ERROR := by
    rcases h with h | h <;> rw [h] <;> decide
  have hs := scanChars_ok a ln 0 false l hne
  rw [scanLines_cons_eq]
  change (match scanChars (withCursor a ln 0) false l with
    | Except.error r => Except.error r
    | Except.ok (a, hasContent) => _) = _
  rw [hs]
  dsimp only
  rw [if_neg]
  · simp only [processChar_withCursor, Nat.zero_add]
    rfl
  · rintro ⟨-, h6, h0, -⟩
    rcases h with h | h
    · exact h0 h
    · exact h6 h

theorem scanLines_missing (a : DFAAnalyzer) (ln ps : Nat) (l : List Char)
    (rest : List (List Char)) (hc : hasContentOf l = true)
    (h6 : (feed a l).currentState ≠ State.Q6) (h0 : (feed a l).currentState ≠ State.Q0)
    (he : (feed a l).currentState ≠ State.Q_ERROR) :
    scanLines (withCursor a ln ps) (l :: rest) =
      Except.error
        ({ success := false, message := "Missing semicolon at end of line",
           line := ln, position := l.length, duplicateName := "" },
          withCursor (feed a l) ln l.length) := by
  have hs := scanChars_ok a ln 0 false l he
  rw [scanLines_cons_eq]
  change (match scanChars (withCursor a ln 0) false l with
    | Except.error r => Except.error r
    | Except.ok (a, hasContent) => _) = _
  rw [hs]
  dsimp only
  rw [if_pos]
  · simp
  · simp [hc, h6, h0, he]

theorem scanLines_err (a : DFAAnalyzer) (ln ps : Nat) (p : List Char) (c : Char)
    (q : List Char) (rest : List (List Char))
    (h1 : (feed a p).currentState ≠ State.Q_ERROR)
    (h2 : (feed a (p ++ [c])).currentState = State.Q_ERROR) :
    scanLines (withCursor a ln ps) ((p ++ c :: q) :: rest) =
      Except.error (failAt (withCursor (feed a (p ++ [c])) ln p.length),
        withCursor (feed a (p ++ [c])) ln p.length) := by
  have hs := scanChars_err a ln 0 false p c q h1 h2
  rw [scanLines_cons_eq]
  change (match scanChars (withCursor a ln 0) false (p ++ c :: q) with
    | Except.error r => Except.error r
    | Except.ok (a, hasContent) => _) = _
  rw [hs, Nat.zero_add]

theorem feed_unlines_cons (a : DFAAnalyzer) (l : List Char) (ls : List (List Char)) :
    feed a (unlines (l :: ls)) = feed (processChar (feed a l) '\n') (unlines ls) := by
  rw [unlines, feed_append, feed_cons]

theorem unlines_append (xs ys : List (List Char)) :
    unlines (xs ++ ys) = unlines xs ++ unlines ys := by
  induction xs with
  | nil => rfl
  | cons x xs ih => simp [unlines, ih]

/-- Lines that pass are consumed, and the loop goes on behind them. -/
theorem scanLines_prefix (a : DFAAnalyzer) (ln ps : Nat) (pre : List (List Char))
    (l : List Char) (rest : List (List Char)) (h : LinesPass a pre) :
    ∃ ps2, scanLines (withCursor a ln ps) (pre ++ l :: rest) =
      scanLines (withCursor (feed a (unlines pre)) (ln + pre.length) ps2) (l :: rest) := by
  induction pre generalizing a ln ps with
  | nil => exact ⟨ps, rfl⟩
  | cons x pre ih =>
    obtain ⟨hx, hrest⟩ := h
    obtain ⟨ps2, hps⟩ := ih (processChar (feed a x) '\n') (ln + 1) x.length hrest
    refine ⟨ps2, ?_⟩
    rw [List.cons_append, scanLines_pass a ln ps x _ hx, hps, feed_unlines_cons]
    simp only [List.length_cons]
    rw [show ln + 1 + pre.length = ln + (pre.length + 1) by omega]

/-- When all lines pass, the loop ends normally, having consumed the text. -/
theorem scanLines_ok (a : DFAAnalyzer) (ln ps : Nat) (ls : List (List Char))
    (h : LinesPass a ls) :
    ∃ ps2, scanLines (withCursor a ln ps) ls =
      Except.ok (withCursor (feed a (unlines ls)) (ln + ls.length) ps2) := by
  induction ls generalizing a ln ps with
  | nil => exact ⟨ps, rfl⟩
  | cons x ls ih =>
    obtain ⟨hx, hrest⟩ := h
    obtain ⟨ps2, hps⟩ := ih (processChar (feed a x) '\n') (ln + 1) x.length hrest
    refine ⟨ps2, ?_⟩
    rw [scanLines_pass a ln ps x _ hx, hps, feed_unlines_cons]
    simp only [List.length_cons]
    rw [show ln + 1 + ls.length = ln + (ls.length + 1) by omega]

theorem isWhitespace_iff (c : Char) :
    isWhitespace c = true ↔ c = ' ' ∨ c = '\t' ∨ c = '\n' ∨ c = '\r' := by
  simp [isWhitespace, or_assoc]

theorem processChar_Q0_ws (a : DFAAnalyzer) (c : Char) (h : a.currentState = State.Q0)
    (hw : isWhitespace c = true) : processChar a c = a := by
  unfold processChar
  rw [h]
  simp [hw]

theorem processChar_newline_Q0 (a : DFAAnalyzer)
    (h : a.currentState = State.Q0 ∨ a.currentState = State.Q6) :
    (processChar a '\n').currentState = State.Q0 := by
  unfold processChar
  rcases h with h | h <;> rw [h] <;> simp [isWhitespace, h]

theorem feed_Q0_noContent (a : DFAAnalyzer) (l : List Char) (h : a.currentState = State.Q0)
    (hc : hasContentOf l = false) : feed a l = a := by
  induction l with
  | nil => rfl
  | cons c cs ih =>
    simp only [hasContentOf, List.any_cons, Bool.or_eq_false_iff, Bool.not_eq_false'] at hc
    rw [feed_cons, processChar_Q0_ws a c h hc.1]
    exact ih (by simpa [hasContentOf] using hc.2)

theorem linesPass_append (a : DFAAnalyzer) (xs ys : List (List Char)) :
    LinesPass a (xs ++ ys) ↔ LinesPass a xs ∧ LinesPass (feed a (unlines xs)) ys := by
  induction xs generalizing a with
  | nil => simp [LinesPass, unlines, feed_nil]
  | cons x xs ih =>
    rw [List.cons_append]
    change (_ ∧ LinesPass _ (xs ++ ys)) ↔ (_ ∧ LinesPass _ xs) ∧ _
    rw [ih, feed_unlines_cons, and_assoc]

/-- From `Q0`, the line loop either passes every line, or stops at the first
character that drives the automaton into `Q_ERROR`, or stops at the end of the
first line with content that ends outside `Q0` and `Q6`. -/
theorem scanLines_cases (a : DFAAnalyzer) (ls : List (List Char))
    (h : a.currentState = State.Q0) :
    LinesPass a ls ∨
    (∃ pre p c q post, ls = pre ++ (p ++ c :: q) :: post ∧ LinesPass a pre ∧
      (feed a (unlines pre ++ p)).currentState ≠ State.Q_ERROR ∧
      (feed a (unlines pre ++ (p ++ [c]))).currentState = State.Q_ERROR) ∨
    (∃ pre l post, ls = pre ++ l :: post ∧ LinesPass a pre ∧ hasContentOf l = true ∧
      (feed a (unlines pre ++ l)).currentState ≠ State.Q6 ∧
      (feed a (unlines pre ++ l)).currentState ≠ State.Q0 ∧
      (feed a (unlines pre ++ l)).currentState ≠ State.Q_ERROR) := by
  induction ls generalizing a with
  | nil => exact Or.inl trivial
  | cons l ls ih =>
    by_cases hp : (feed a l).currentState = State.Q0 ∨ (feed a l).currentState = State.Q6
    · have h0 := processChar_newline_Q0 _ hp
      rcases ih _ h0 with hA | ⟨pre, p, c, q, post, e, hpre, h1, h2⟩ |
          ⟨pre, x, post, e, hpre, hc, h6, hq0, he⟩
      · exact Or.inl ⟨hp, hA⟩
      · refine Or.inr (Or.inl ⟨l :: pre, p, c, q, post, by rw [e]; rfl, ⟨hp, hpre⟩, ?_, ?_⟩)
        · rw [feed_append, feed_unlines_cons, ← feed_append]; exact h1
        · rw [feed_append, feed_unlines_cons, ← feed_append]; exact h2
      · refine Or.inr (Or.inr ⟨l :: pre, x, post, by rw [e]; rfl, ⟨hp, hpre⟩, hc, ?_, ?_, ?_⟩)
        · rw [feed_append, feed_unlines_cons, ← feed_append]; exact h6
        · rw [feed_append, feed_unlines_cons, ← feed_append]; exact hq0
        · rw [feed_append, feed_unlines_cons, ← feed_append]; exact he
    · by_cases he : (feed a l).currentState = State.Q_ERROR
      · obtain ⟨p, c, q, hl, h1, h2⟩ := first_error a l (by rw [h]; decide) he
        exact Or.inr (Or.inl ⟨[], p, c, q, ls, by rw [hl]; rfl, trivial, h1, h2⟩)
      · have hc : hasContentOf l = true := by
          by_contra hc
          rw [Bool.not_eq_true] at hc
          rw [feed_Q0_noContent a l h hc] at hp
          exact hp (Or.inl h)
        push_neg at hp
        exact Or.inr (Or.inr ⟨[], l, ls, rfl, trivial, hc, hp.2, hp.1, he⟩)

/-! ## The lines that `std::getline` delivers -/

theorem getLinesFrom_line (acc l rest : List Char) (h : '\n' ∉ l) :
    getLinesFrom acc (l ++ '\n' :: rest) = (acc ++ l) :: getLinesFrom [] rest := by
  induction l generalizing acc with
  | nil => simp [getLinesFrom]
  | cons c cs ih =>
    have hc : c ≠ '\n' := fun e => h (by simp [e])
    have hcs : '\n' ∉ cs := fun e => h (List.mem_cons_of_mem _ e)
    rw [List.cons_append, getLinesFrom, if_neg hc, ih _ hcs]
    simp

theorem getLinesFrom_last (acc l : List Char) (h : '\n' ∉ l) :
    getLinesFrom acc l = lastLines (acc ++ l) := by
  induction l generalizing acc with
  | nil => simp [getLinesFrom, lastLines]
  | cons c cs ih =>
    have hc : c ≠ '\n' := fun e => h (by simp [e])
    have hcs : '\n' ∉ cs := fun e => h (List.mem_cons_of_mem _ e)
    rw [getLinesFrom, if_neg hc, ih _ hcs]
    simp

/-- The lines of a text written as terminated lines `ls` and a final part. -/
theorem getLines_unlines (ls : List (List Char)) (last : List Char)
    (hls : ∀ l ∈ ls, '\n' ∉ l) (hlast : '\n' ∉ last) :
    getLines (unlines ls ++ last) = ls ++ lastLines last := by
  induction ls with
  | nil => simpa [unlines, getLines] using getLinesFrom_last [] last hlast
  | cons l ls ih =>
    have h1 := hls l (List.mem_cons_self _ _)
    have h2 : ∀ x ∈ ls, '\n' ∉ x := fun x hx => hls x (List.mem_cons_of_mem _ hx)
    have := getLinesFrom_line [] l (unlines ls ++ last) h1
    simp only [getLines, unlines, List.append_assoc, List.cons_append] at ih ⊢
    rw [this, ih h2]
    simp

/-- Every text is a sequence of terminated lines and a final part. -/
theorem text_decomp (input : List Char) :
    ∃ ls last, input = unlines ls ++ last ∧ (∀ l ∈ ls, '\n' ∉ l) ∧ '\n' ∉ last := by
  induction input with
  | nil => exact ⟨[], [], rfl, by simp, by simp⟩
  | cons c cs ih =>
    obtain ⟨ls, last, e, hls, hlast⟩ := ih
    by_cases hc : c = '\n'
    · refine ⟨[] :: ls, last, by rw [e, hc]; rfl, ?_, hlast⟩
      intro l hl
      rcases List.mem_cons.1 hl with h | h
      · rw [h]; simp
      · exact hls l h
    · cases ls with
      | nil =>
        refine ⟨[], c :: last, by rw [e]; rfl, by simp, ?_⟩
        intro h
        rcases List.mem_cons.1 h with h | h
        · exact hc h.symm
        · exact hlast h
      | cons l ls =>
        refine ⟨(c :: l) :: ls, last, by rw [e]; rfl, ?_, hlast⟩
        intro x hx
        rcases List.mem_cons.1 hx with h | h
        · rw [h]
          intro h2
          rcases List.mem_cons.1 h2 with h3 | h3
          · exact hc h3.symm
          · exact hls l (List.mem_cons_self _ _) h3
        · exact hls x (List.mem_cons_of_mem _ h)

theorem mem_unlines_of_mem (ls : List (List Char)) (l : List Char) (c : Char)
    (hl : l ∈ ls) (hc : c ∈ l) : c ∈ unlines ls := by
  induction ls with
  | nil => cases hl
  | cons x xs ih =>
    rcases List.mem_cons.1 hl with h | h
    · subst h; simp [unlines, hc]
    · simp [unlines, ih h]

theorem mem_lastLines (last l : List Char) (h : l ∈ lastLines last) : l = last := by
  unfold lastLines at h
  split at h
  · cases h
  · simpa using h

/-! ## The whole scan in terms of `feed` -/

theorem linesPass_final_state (a : DFAAnalyzer) (ls : List (List Char))
    (h0 : a.currentState = State.Q0) (h : LinesPass a ls) :
    (feed a (unlines ls)).currentState = State.Q0 := by
  induction ls generalizing a with
  | nil => exact h0
  | cons l ls ih =>
    rw [feed_unlines_cons]
    exact ih _ (processChar_newline_Q0 _ h.1) h.2

theorem analyze_some_eq (a : DFAAnalyzer) (cs : List Char) :
    analyze a (some cs) =
      match scanLines (withCursor a 1 a.currentPos) (getLines cs) with
      | Except.error r => r
      | Except.ok a =>
        if a.currentState = State.Q6 ∨ a.currentState = State.Q0 then (okResult, a)
        else
          ({ success := false, message := "Unexpected end of input",
             line := a.currentLine, position := a.currentPos,
             duplicateName := "" }, a) := rfl

theorem analyze_of_pass (input : List Char) (h : LinesPass reset (getLines input)) :
    ∃ ps, analyze reset (some input) =
      (okResult, withCursor (feed reset (unlines (getLines input)))
        (1 + (getLines input).length) ps) := by
  obtain ⟨ps, hps⟩ := scanLines_ok reset 1 reset.currentPos _ h
  refine ⟨ps, ?_⟩
  rw [analyze_some_eq, hps]
  dsimp only
  rw [if_pos]
  exact Or.inr (linesPass_final_state reset _ rfl h)

theorem analyze_of_error (input : List Char) (pre : List (List Char)) (p : List Char)
    (c : Char) (q : List Char) (post : List (List Char))
    (e : getLines input = pre ++ (p ++ c :: q) :: post) (hpre : LinesPass reset pre)
    (h1 : (feed reset (unlines pre ++ p)).currentState ≠ State.Q_ERROR)
    (h2 : (feed reset (unlines pre ++ (p ++ [c]))).currentState = State.Q_ERROR) :
    analyze reset (some input) =
      (failAt (withCursor (feed reset (unlines pre ++ (p ++ [c]))) (1 + pre.length) p.length),
        withCursor (feed reset (unlines pre ++ (p ++ [c]))) (1 + pre.length) p.length) := by
  obtain ⟨ps, hps⟩ := scanLines_prefix reset 1 reset.currentPos pre (p ++ c :: q) post hpre
  rw [feed_append] at h1 h2
  rw [analyze_some_eq, e, hps, scanLines_err _ _ _ p c q post h1 h2, ← feed_append]

theorem analyze_of_missing (input : List Char) (pre : List (List Char)) (l : List Char)
    (post : List (List Char))
    (e : getLines input = pre ++ l :: post) (hpre : LinesPass reset pre)
    (hc : hasContentOf l = true)
    (h6 : (feed reset (unlines pre ++ l)).currentState ≠ State.Q6)
    (h0 : (feed reset (unlines pre ++ l)).currentState ≠ State.Q0)
    (he : (feed reset (unlines pre ++ l)).currentState ≠ State.Q_ERROR) :
    analyze reset (some input) =
      (missingAt (1 + pre.length) l.length,
        withCursor (feed reset (unlines pre ++ l)) (1 + pre.length) l.length) := by
  obtain ⟨ps, hps⟩ := scanLines_prefix reset 1 reset.currentPos pre l post hpre
  rw [feed_append] at h6 h0 he
  rw [analyze_some_eq, e, hps, scanLines_missing _ _ _ l post hc h6 h0 he, ← feed_append]
  rfl

/-- The three ways in which a scan from the reset state ends. -/
theorem analyze_cases (input : List Char) :
    (LinesPass reset (getLines input) ∧
      ∃ ps, analyze reset (some input) =
        (okResult, withCursor (feed reset (unlines (getLines input)))
          (1 + (getLines input).length) ps)) ∨
    (∃ pre p c q post, getLines input = pre ++ (p ++ c :: q) :: post ∧ LinesPass reset pre ∧
      (feed reset (unlines pre ++ p)).currentState ≠ State.Q_ERROR ∧
      (feed reset (unlines pre ++ (p ++ [c]))).currentState = State.Q_ERROR ∧
      analyze reset (some input) =
        (failAt (withCursor (feed reset (unlines pre ++ (p ++ [c]))) (1 + pre.length) p.length),
          withCursor (feed reset (unlines pre ++ (p ++ [c]))) (1 + pre.length) p.length)) ∨
    (∃ pre l post, getLines input = pre ++ l :: post ∧ LinesPass reset pre ∧
      hasContentOf l = true ∧
      (feed reset (unlines pre ++ l)).currentState ≠ State.Q6 ∧
      (feed reset (unlines pre ++ l)).currentState ≠ State.Q0 ∧
      (feed reset (unlines pre ++ l)).currentState ≠ State.Q_ERROR ∧
      analyze reset (some input) =
        (missingAt (1 + pre.length) l.length,
          withCursor (feed reset (unlines pre ++ l)) (1 + pre.length) l.length)) := by
  rcases scanLines_cases reset (getLines input) rfl with hA |
      ⟨pre, p, c, q, post, e, hpre, h1, h2⟩ | ⟨pre, l, post, e, hpre, hc, h6, h0, he⟩
  · exact Or.inl ⟨hA, analyze_of_pass input hA⟩
  · exact Or.inr (Or.inl ⟨pre, p, c, q, post, e, hpre, h1, h2,
      analyze_of_error input pre p c q post e hpre h1 h2⟩)
  · exact Or.inr (Or.inr ⟨pre, l, post, e, hpre, hc, h6, h0, he,
      analyze_of_missing input pre l post e hpre hc h6 h0 he⟩)

theorem failAt_success (a : DFAAnalyzer) : (failAt a).success = false := by
  unfold failAt; split <;> rfl

theorem failAt_dup_iff (a : DFAAnalyzer) :
    (failAt a).duplicateName ≠ "" ↔ (failAt a).message = "Duplicate variable name" := by
  unfold failAt
  split
  · rename_i h; simpa using h
  · simp

theorem mem_getLines (input l : List Char) (c : Char) (hl : l ∈ getLines input)
    (hc : c ∈ l) : c ∈ input ∧ c ≠ '\n' := by
  obtain ⟨ls, last, e, hls, hlast⟩ := text_decomp input
  rw [e, getLines_unlines ls last hls hlast] at hl
  rcases List.mem_append.1 hl with h | h
  · exact ⟨by rw [e]; exact List.mem_append_left _ (mem_unlines_of_mem ls l c h hc),
      fun hn => hls l h (hn ▸ hc)⟩
  · have := mem_lastLines last l h
    subst this
    exact ⟨by rw [e]; exact List.mem_append_right _ hc, fun hn => hlast (hn ▸ hc)⟩

theorem linesPass_noContent (a : DFAAnalyzer) (ls : List (List Char))
    (h0 : a.currentState = State.Q0) (h : ∀ l ∈ ls, hasContentOf l = false) :
    LinesPass a ls := by
  induction ls with
  | nil => trivial
  | cons l ls ih =>
    have hl := feed_Q0_noContent a l h0 (h l (List.mem_cons_self _ _))
    refine ⟨Or.inl (by rw [hl]; exact h0), ?_⟩
    rw [hl, processChar_Q0_ws a '\n' h0 (by decide)]
    exact ih (fun x hx => h x (List.mem_cons_of_mem _ hx))

/-! ## Character classes -/

theorem start_valid (c : Char) (h : isStartChar c = true) : validTypeChars c = true := by
  simp only [isStartChar, validTypeChars, Bool.or_eq_true, Bool.and_eq_true, decide_eq_true_eq,
    beq_iff_eq] at h ⊢
  tauto

theorem ws_not_valid (c : Char) (h : isWhitespace c = true) : validTypeChars c = false := by
  simp only [isWhitespace, Bool.or_eq_true, beq_iff_eq] at h
  rcases h with ((h | h) | h) | h <;> subst h <;> decide

theorem valid_not_ws (c : Char) (h : validTypeChars c = true) : isWhitespace c = false := by
  cases hw : isWhitespace c
  · rfl
  · rw [ws_not_valid c hw] at h; cases h

theorem valid_ne_semi (c : Char) (h : validTypeChars c = true) : c ≠ ';' := by
  rintro rfl; revert h; decide

theorem valid_ne_eq (c : Char) (h : validTypeChars c = true) : c ≠ '=' := by
  rintro rfl; revert h; decide

theorem blank_ws (c : Char) (h : c = ' ' ∨ c = '\t' ∨ c = '\r') : isWhitespace c = true := by
  rcases h with h | h | h <;> subst h <;> decide

theorem blank_ne_newline (c : Char) (h : c = ' ' ∨ c = '\t' ∨ c = '\r') : c ≠ '\n' := by
  rcases h with h | h | h <;> subst h <;> decide

theorem blank_ne_semi (c : Char) (h : c = ' ' ∨ c = '\t' ∨ c = '\r') : c ≠ ';' := by
  rcases h with h | h | h <;> subst h <;> decide

theorem blank_of_ws (c : Char) (h : isWhitespace c = true) (hn : c ≠ '\n') :
    c = ' ' ∨ c = '\t' ∨ c = '\r' := by
  rcases (isWhitespace_iff c).1 h with h | h | h | h
  · exact Or.inl h
  · exact Or.inr (Or.inl h)
  · exact absurd h hn
  · exact Or.inr (Or.inr h)

theorem ws_ne_semi (c : Char) (h : isWhitespace c = true) : c ≠ ';' := by
  rcases (isWhitespace_iff c).1 h with h | h | h | h <;> subst h <;> decide

theorem ws_ne_eq (c : Char) (h : isWhitespace c = true) : c ≠ '=' := by
  rcases (isWhitespace_iff c).1 h with h | h | h | h <;> subst h <;> decide

/-! ## The automaton on the tokens of a declaration -/

theorem processChar_blank_stay (a : DFAAnalyzer) (c : Char)
    (hb : c = ' ' ∨ c = '\t' ∨ c = '\r')
    (hs : a.currentState = State.Q0 ∨ a.currentState = State.Q2 ∨
      a.currentState = State.Q4 ∨ a.currentState = State.Q6) : processChar a c = a := by
  have hw := blank_ws c hb
  have hn := blank_ne_newline c hb
  unfold processChar
  rcases hs with h | h | h | h <;> rw [h] <;> simp [hw, hn]

theorem feed_blank_stay (a : DFAAnalyzer) (ws : List Char) (hb : Blank ws)
    (hs : a.currentState = State.Q0 ∨ a.currentState = State.Q2 ∨
      a.currentState = State.Q4 ∨ a.currentState = State.Q6) : feed a ws = a := by
  induction ws with
  | nil => rfl
  | cons c cs ih =>
    rw [feed_cons, processChar_blank_stay a c (hb c (List.mem_cons_self _ _)) hs]
    exact ih (fun d hd => hb d (List.mem_cons_of_mem _ hd))

theorem processChar_start (a : DFAAnalyzer) (c : Char) (hc : isStartChar c = true)
    (hs : a.currentState = State.Q0 ∨ a.currentState = State.Q6) :
    processChar a c =
      { a with currentState := State.Q1, currentType := ⟨a.currentType.data ++ [c]⟩ } := by
  have hw := valid_not_ws c (start_valid c hc)
  unfold processChar
  rcases hs with h | h <;> rw [h] <;> simp [hw, hc] <;> rfl

theorem feed_valid_Q1 (a : DFAAnalyzer) (cs : List Char)
    (hv : ∀ d ∈ cs, validTypeChars d = true) (hs : a.currentState = State.Q1) :
    feed a cs = { a with currentType := ⟨a.currentType.data ++ cs⟩ } := by
  induction cs generalizing a with
  | nil => simp [feed_nil]
  | cons c cs ih =>
    have hc := hv c (List.mem_cons_self _ _)
    have e : processChar a c = { a with currentType := ⟨a.currentType.data ++ [c]⟩ } := by
      unfold processChar
      rw [hs]
      simp [valid_not_ws c hc, valid_ne_semi c hc, valid_ne_eq c hc, hc]
      rfl
    rw [feed_cons, ih (processChar a c) (fun d hd => hv d (List.mem_cons_of_mem _ hd))
      (by rw [e]; exact hs), e]
    simp

theorem feed_type (a : DFAAnalyzer) (ty : List Char) (hty : IsName ty)
    (hs : a.currentState = State.Q0 ∨ a.currentState = State.Q6) :
    feed a ty =
      { a with currentState := State.Q1, currentType := ⟨a.currentType.data ++ ty⟩ } := by
  obtain ⟨c, cs, rfl, hc, hcs⟩ := hty
  rw [feed_cons, processChar_start a c hc hs, feed_valid_Q1 _ cs hcs rfl]
  simp

theorem feed_blank_Q1 (a : DFAAnalyzer) (ws : List Char) (hb : Blank ws) (hne : ws ≠ [])
    (hs : a.currentState = State.Q1) :
    feed a ws = { a with currentState := State.Q2 } := by
  cases ws with
  | nil => exact absurd rfl hne
  | cons c cs =>
    have hw := blank_ws c (hb c (List.mem_cons_self _ _))
    have e : processChar a c = { a with currentState := State.Q2 } := by
      unfold processChar
      rw [hs]
      simp [hw]
    rw [feed_cons, e]
    exact feed_blank_stay _ cs (fun d hd => hb d (List.mem_cons_of_mem _ hd))
      (Or.inr (Or.inl rfl))

theorem feed_valid_Q3 (a : DFAAnalyzer) (cs : List Char)
    (hv : ∀ d ∈ cs, validIdChars d = true) (hs : a.currentState = State.Q3) :
    feed a cs = { a with currentIdentifier := ⟨a.currentIdentifier.data ++ cs⟩ } := by
  induction cs generalizing a with
  | nil => simp [feed_nil]
  | cons c cs ih =>
    have hc : validTypeChars c = true := hv c (List.mem_cons_self _ _)
    have e : processChar a c =
        { a with currentIdentifier := ⟨a.currentIdentifier.data ++ [c]⟩ } := by
      unfold processChar
      rw [hs]
      simp [valid_not_ws c hc, valid_ne_semi c hc, valid_ne_eq c hc, hc, validIdChars]
      rfl
    rw [feed_cons, ih (processChar a c) (fun d hd => hv d (List.mem_cons_of_mem _ hd))
      (by rw [e]; exact hs), e]
    simp

theorem feed_ident (a : DFAAnalyzer) (id : List Char) (hid : IsName id)
    (hs : a.currentState = State.Q2) :
    feed a id =
      { a with currentState := State.Q3,
               currentIdentifier := ⟨a.currentIdentifier.data ++ id⟩ } := by
  obtain ⟨c, cs, rfl, hc, hcs⟩ := hid
  have hw := valid_not_ws c (start_valid c hc)
  have e : processChar a c =
      { a with currentState := State.Q3,
               currentIdentifier := ⟨a.currentIdentifier.data ++ [c]⟩ } := by
    unfold processChar
    rw [hs]
    simp [hw, hc]
    rfl
  rw [feed_cons, e, feed_valid_Q3 _ cs hcs rfl]
  simp

theorem feed_blank_Q3 (a : DFAAnalyzer) (ws : List Char) (hb : Blank ws) (hne : ws ≠ [])
    (hs : a.currentState = State.Q3) (hnd : a.currentIdentifier ∉ a.declaredVariables) :
    feed a ws = { a with currentState := State.Q4 } := by
  cases ws with
  | nil => exact absurd rfl hne
  | cons c cs =>
    have hw := blank_ws c (hb c (List.mem_cons_self _ _))
    have e : processChar a c = { a with currentState := State.Q4 } := by
      unfold processChar checkForDuplicate
      rw [hs]
      simp [hw, hnd]
    rw [feed_cons, e]
    exact feed_blank_stay _ cs (fun d hd => hb d (List.mem_cons_of_mem _ hd))
      (Or.inr (Or.inr (Or.inl rfl)))

theorem feed_expr (a : DFAAnalyzer) (e : List Char) (he : IsExpr e)
    (hs : a.currentState = State.Q5) : feed a e = a := by
  induction e with
  | nil => rfl
  | cons c cs ih =>
    have hc := he c (List.mem_cons_self _ _)
    have e1 : processChar a c = a := by
      unfold processChar
      rw [hs]
      simp [hc.1, hc.2]
    rw [feed_cons, e1]
    exact ih (fun d hd => he d (List.mem_cons_of_mem _ hd))

theorem feed_head (a : DFAAnalyzer) (ty ws₁ id ws₂ : List Char)
    (hs : a.currentState = State.Q0 ∨ a.currentState = State.Q6)
    (hi : a.currentIdentifier = "") (hnd : String.mk id ∉ a.declaredVariables)
    (hty : IsName ty) (hw₁ : Blank ws₁) (hne : ws₁ ≠ []) (hid : IsName id) (hw₂ : Blank ws₂) :
    feed a (ty ++ ws₁ ++ id ++ ws₂) =
      { a with currentState := if ws₂ = [] then State.Q3 else State.Q4,
               currentType := ⟨a.currentType.data ++ ty⟩,
               currentIdentifier := ⟨id⟩ } := by
  rw [feed_append, feed_append, feed_append, feed_type a ty hty hs,
    feed_blank_Q1 _ ws₁ hw₁ hne rfl, feed_ident _ id hid rfl]
  simp only [hi, show ("" : String).data = [] from rfl, List.nil_append]
  by_cases h2 : ws₂ = []
  · subst h2
    simp [feed_nil]
  · rw [feed_blank_Q3 _ ws₂ hw₂ h2 rfl hnd]
    simp [h2]

theorem processChar_semi_Q3 (a : DFAAnalyzer) (hs : a.currentState = State.Q3)
    (hnd : a.currentIdentifier ∉ a.declaredVariables) :
    processChar a ';' =
      { a with declaredVariables := insert a.currentIdentifier a.declaredVariables,
               currentState := State.Q6, currentIdentifier := "", currentType := "" } := by
  unfold processChar checkForDuplicate
  rw [hs]
  simp [hnd, hs, isWhitespace]

theorem processChar_eq_Q3 (a : DFAAnalyzer) (hs : a.currentState = State.Q3)
    (hnd : a.currentIdentifier ∉ a.declaredVariables) :
    processChar a '=' =
      { a with declaredVariables := insert a.currentIdentifier a.declaredVariables,
               currentState := State.Q5, currentIdentifier := "" } := by
  unfold processChar checkForDuplicate
  rw [hs]
  simp [hnd, hs, isWhitespace]

theorem processChar_semi_Q4 (a : DFAAnalyzer) (hs : a.currentState = State.Q4) :
    processChar a ';' =
      { a with currentState := State.Q6, currentIdentifier := "", currentType := "" } := by
  unfold processChar
  rw [hs]
  simp [isWhitespace]

theorem processChar_eq_Q4 (a : DFAAnalyzer) (hs : a.currentState = State.Q4) :
    processChar a '=' = { a with currentState := State.Q5, currentIdentifier := "" } := by
  unfold processChar
  rw [hs]
  simp [isWhitespace]

theorem processChar_semi_Q5 (a : DFAAnalyzer) (hs : a.currentState = State.Q5) :
    processChar a ';' = { a with currentState := State.Q6, currentType := "" } := by
  unfold processChar
  rw [hs]
  simp

theorem processChar_Q3_dup (a : DFAAnalyzer) (c : Char) (hs : a.currentState = State.Q3)
    (hm : a.currentIdentifier ∈ a.declaredVariables)
    (hc : isWhitespace c = true ∨ c = ';' ∨ c = '=') :
    processChar a c =
      { a with duplicateVarName := a.currentIdentifier, currentState := State.Q_ERROR } := by
  unfold processChar checkForDuplicate
  rw [hs]
  rcases hc with hc | hc | hc
  · simp [hc, hm]
  · subst hc; simp [hm, isWhitespace]
  · subst hc; simp [hm, isWhitespace]

theorem processChar_ws_Q3 (a : DFAAnalyzer) (c : Char) (hs : a.currentState = State.Q3)
    (hm : a.currentIdentifier ∉ a.declaredVariables) (hc : isWhitespace c = true) :
    processChar a c = { a with currentState := State.Q4 } := by
  unfold processChar checkForDuplicate
  rw [hs]
  simp [hc, hm]

/-- The analyzer after a complete declaration `type id ;`. -/
theorem feed_plain (a : DFAAnalyzer) (ty ws₁ id ws₂ : List Char)
    (hs : a.currentState = State.Q0 ∨ a.currentState = State.Q6)
    (hi : a.currentIdentifier = "") (hnd : String.mk id ∉ a.declaredVariables)
    (hty : IsName ty) (hw₁ : Blank ws₁) (hne : ws₁ ≠ []) (hid : IsName id) (hw₂ : Blank ws₂) :
    feed a (ty ++ ws₁ ++ id ++ ws₂ ++ [';']) =
      { a with currentState := State.Q6, declaredVariables := declaredAfter a id ws₂,
               currentIdentifier := "", currentType := "" } := by
  rw [feed_append, feed_head a ty ws₁ id ws₂ hs hi hnd hty hw₁ hne hid hw₂, feed_cons, feed_nil]
  by_cases h2 : ws₂ = []
  · rw [processChar_semi_Q3 _ (by simp [h2]) hnd]
    simp [declaredAfter, h2]
  · rw [processChar_semi_Q4 _ (by simp [h2])]
    simp [declaredAfter, h2]

/-- The analyzer inside the expression of a declaration `type id = expr`. -/
theorem feed_init_head (a : DFAAnalyzer) (ty ws₁ id ws₂ e : List Char)
    (hs : a.currentState = State.Q0 ∨ a.currentState = State.Q6)
    (hi : a.currentIdentifier = "") (hnd : String.mk id ∉ a.declaredVariables)
    (hty : IsName ty) (hw₁ : Blank ws₁) (hne : ws₁ ≠ []) (hid : IsName id) (hw₂ : Blank ws₂)
    (he : IsExpr e) :
    feed a (ty ++ ws₁ ++ id ++ ws₂ ++ '=' :: e) =
      { a with currentState := State.Q5, declaredVariables := declaredAfter a id ws₂,
               currentIdentifier := "", currentType := ⟨a.currentType.data ++ ty⟩ } := by
  rw [feed_append, feed_head a ty ws₁ id ws₂ hs hi hnd hty hw₁ hne hid hw₂, feed_cons]
  by_cases h2 : ws₂ = []
  · rw [processChar_eq_Q3 _ (by simp [h2]) hnd, feed_expr _ e he rfl]
    simp [declaredAfter, h2]
  · rw [processChar_eq_Q4 _ (by simp [h2]), feed_expr _ e he rfl]
    simp [declaredAfter, h2]

/-- The analyzer after a complete declaration `type id = expr ;`. -/
theorem feed_init (a : DFAAnalyzer) (ty ws₁ id ws₂ e : List Char)
    (hs : a.currentState = State.Q0 ∨ a.currentState = State.Q6)
    (hi : a.currentIdentifier = "") (hnd : String.mk id ∉ a.declaredVariables)
    (hty : IsName ty) (hw₁ : Blank ws₁) (hne : ws₁ ≠ []) (hid : IsName id) (hw₂ : Blank ws₂)
    (he : IsExpr e) :
    feed a (ty ++ ws₁ ++ id ++ ws₂ ++ '=' :: e ++ [';']) =
      { a with currentState := State.Q6, declaredVariables := declaredAfter a id ws₂,
               currentIdentifier := "", currentType := "" } := by
  rw [feed_append, feed_init_head a ty ws₁ id ws₂ e hs hi hnd hty hw₁ hne hid hw₂ he,
    feed_cons, feed_nil, processChar_semi_Q5 _ rfl]

theorem feed_statement (a : DFAAnalyzer) (id s : List Char) (h : Statement id s)
    (hs : a.currentState = State.Q0 ∨ a.currentState = State.Q6)
    (hi : a.currentIdentifier = "") (hnd : String.mk id ∉ a.declaredVariables) :
    ∃ ws₂, feed a s =
      { a with currentState := State.Q6, declaredVariables := declaredAfter a id ws₂,
               currentIdentifier := "", currentType := "" } := by
  cases h with
  | plain ty ws₁ _ ws₂ hty hw₁ hne hid hw₂ =>
    exact ⟨ws₂, feed_plain a ty ws₁ id ws₂ hs hi hnd hty hw₁ hne hid hw₂⟩
  | init ty ws₁ _ ws₂ e hty hw₁ hne hid hw₂ he =>
    exact ⟨ws₂, feed_init a ty ws₁ id ws₂ e hs hi hnd hty hw₁ hne hid hw₂ he⟩

theorem mem_declaredAfter (a : DFAAnalyzer) (id ws₂ : List Char) (x : String)
    (h : x ∈ declaredAfter a id ws₂) : x ∈ a.declaredVariables ∨ x = String.mk id := by
  unfold declaredAfter at h
  split at h
  · rcases Finset.mem_insert.1 h with h | h
    · exact Or.inr h
    · exact Or.inl h
  · exact Or.inl h

theorem subset_declaredAfter (a : DFAAnalyzer) (id ws₂ : List Char) (x : String)
    (h : x ∈ a.declaredVariables) : x ∈ declaredAfter a id ws₂ := by
  unfold declaredAfter
  split
  · exact Finset.mem_insert_of_mem h
  · exact h

/-- A well-formed line of declarations of fresh, distinct identifiers takes the
automaton from `Q0` or `Q6` to `Q0` or `Q6`. -/
theorem feed_line (a : DFAAnalyzer) (ids : List (List Char)) (l : List Char) (h : Line ids l)
    (hs : a.currentState = State.Q0 ∨ a.currentState = State.Q6)
    (hi : a.currentIdentifier = "") (hnd : ids.Nodup)
    (hfresh : ∀ id ∈ ids, String.mk id ∉ a.declaredVariables) :
    ((feed a l).currentState = State.Q0 ∨ (feed a l).currentState = State.Q6) ∧
    (feed a l).currentIdentifier = "" ∧
    (feed a l).duplicateVarName = a.duplicateVarName ∧
    (∀ x ∈ a.declaredVariables, x ∈ (feed a l).declaredVariables) ∧
    (∀ x ∈ (feed a l).declaredVariables, x ∈ a.declaredVariables ∨ x.data ∈ ids) := by
  induction h generalizing a with
  | blank ws hb =>
    rw [feed_blank_stay a ws hb (by tauto)]
    exact ⟨hs, hi, rfl, fun x hx => hx, fun x hx => Or.inl hx⟩
  | cons ws id s ids rest hb hst _ ih =>
    have hid : String.mk id ∉ a.declaredVariables := hfresh id (List.mem_cons_self _ _)
    obtain ⟨ws₂, e⟩ := feed_statement a id s hst hs hi hid
    have e1 : (feed a s).currentState = State.Q6 := by rw [e]
    have e2 : (feed a s).currentIdentifier = "" := by rw [e]
    have e3 : (feed a s).declaredVariables = declaredAfter a id ws₂ := by rw [e]
    have e4 : (feed a s).duplicateVarName = a.duplicateVarName := by rw [e]
    rw [feed_append, feed_append, feed_blank_stay a ws hb (by tauto)]
    have hnd' := List.nodup_cons.1 hnd
    obtain ⟨h1, h2, h3, h4, h5⟩ := ih (feed a s) (Or.inr e1) e2 hnd'.2 (by
      intro id' hid' hmem
      rw [e3] at hmem
      rcases mem_declaredAfter a id ws₂ _ hmem with hm | hm
      · exact hfresh id' (List.mem_cons_of_mem _ hid') hm
      · injection hm with hm
        exact hnd'.1 (hm ▸ hid'))
    refine ⟨h1, h2, h3.trans e4, fun x hx => h4 x (by
      rw [e3]; exact subset_declaredAfter a id ws₂ x hx), ?_⟩
    intro x hx
    rcases h5 x hx with hm | hm
    · rw [e3] at hm
      rcases mem_declaredAfter a id ws₂ x hm with hm | hm
      · exact Or.inl hm
      · exact Or.inr (by rw [hm]; exact List.mem_cons_self _ _)
    · exact Or.inr (List.mem_cons_of_mem _ hm)

theorem processChar_newline_pass (a : DFAAnalyzer)
    (h : a.currentState = State.Q0 ∨ a.currentState = State.Q6) :
    processChar a '\n' = { a with currentState := State.Q0 } := by
  unfold processChar
  rcases h with h | h <;> rw [h] <;> simp [isWhitespace, ← h]

/-- Well-formed lines of declarations of fresh, pairwise distinct identifiers
all pass. -/
theorem linesPass_of_lines (a : DFAAnalyzer) (idss : List (List (List Char)))
    (ls : List (List Char)) (h : List.Forall₂ Line idss ls)
    (hs : a.currentState = State.Q0) (hi : a.currentIdentifier = "")
    (hnd : idss.flatten.Nodup)
    (hfresh : ∀ id ∈ idss.flatten, String.mk id ∉ a.declaredVariables) :
    LinesPass a ls ∧
    (feed a (unlines ls)).currentState = State.Q0 ∧
    (feed a (unlines ls)).currentIdentifier = "" ∧
    (feed a (unlines ls)).duplicateVarName = a.duplicateVarName ∧
    (∀ x ∈ (feed a (unlines ls)).declaredVariables,
      x ∈ a.declaredVariables ∨ x.data ∈ idss.flatten) := by
  induction h generalizing a with
  | nil => exact ⟨trivial, hs, hi, rfl, fun x hx => Or.inl hx⟩
  | @cons ids l idss ls hl _ ih =>
    rw [List.flatten_cons, List.nodup_append] at hnd
    obtain ⟨n1, n2, n3⟩ := hnd
    obtain ⟨h1, h2, h3, _, h5⟩ := feed_line a ids l hl (Or.inl hs) hi n1
      (fun id hid => hfresh id (by simp [hid]))
    have e := processChar_newline_pass _ h1
    obtain ⟨k1, k2, k3, k4, k5⟩ := ih (processChar (feed a l) '\n') (by rw [e]) (by rw [e]; exact h2)
      n2 (by
        intro id hid hmem
        rw [e] at hmem
        rcases h5 _ hmem with hm | hm
        · exact hfresh id (by simp [hid]) hm
        · exact n3 hm hid)
    rw [feed_unlines_cons]
    refine ⟨⟨h1, k1⟩, k2, k3, ?_, ?_⟩
    · rw [k4, e]; exact h3
    · intro x hx
      rcases k5 x hx with hm | hm
      · rw [e] at hm
        rcases h5 x hm with hm | hm
        · exact Or.inl hm
        · exact Or.inr (by simp [hm])
      · exact Or.inr (by simp [hm])

theorem name_no_newline (w : List Char) (h : IsName w) : '\n' ∉ w := by
  obtain ⟨c, cs, rfl, hc, hcs⟩ := h
  intro hm
  rcases List.mem_cons.1 hm with h1 | h1
  · rw [← h1] at hc
    revert hc; decide
  · have := hcs _ h1
    revert this; decide

theorem blank_no_newline (w : List Char) (h : Blank w) : '\n' ∉ w := fun hm =>
  blank_ne_newline _ (h _ hm) rfl

theorem statement_no_newline (id s : List Char) (h : Statement id s) : '\n' ∉ s := by
  cases h with
  | plain ty ws₁ _ ws₂ hty hw₁ _ hid hw₂ =>
    simp only [List.mem_append, not_or]
    exact ⟨⟨⟨⟨name_no_newline _ hty, blank_no_newline _ hw₁⟩, name_no_newline _ hid⟩,
      blank_no_newline _ hw₂⟩, by decide⟩
  | init ty ws₁ _ ws₂ e hty hw₁ _ hid hw₂ he =>
    simp only [List.mem_append, not_or, List.mem_cons]
    refine ⟨⟨⟨⟨⟨name_no_newline _ hty, blank_no_newline _ hw₁⟩, name_no_newline _ hid⟩,
      blank_no_newline _ hw₂⟩, by decide, fun hm => (he _ hm).2 rfl⟩, by decide⟩

/-- A well-formed line holds no line feed: it is one physical line. -/
theorem line_no_newline (ids : List (List Char)) (l : List Char) (h : Line ids l) :
    '\n' ∉ l := by
  induction h with
  | blank ws hb => exact blank_no_newline ws hb
  | cons ws id s ids rest hb hst _ ih =>
    simp only [List.mem_append, not_or]
    exact ⟨⟨blank_no_newline ws hb, statement_no_newline id s hst⟩, ih⟩

theorem lines_no_newline (idss : List (List (List Char))) (ls : List (List Char))
    (h : List.Forall₂ Line idss ls) : ∀ l ∈ ls, '\n' ∉ l := by
  induction h with
  | nil => simp
  | @cons ids l idss ls hl _ ih =>
    intro x hx
    rcases List.mem_cons.1 hx with h1 | h1
    · rw [h1]; exact line_no_newline ids l hl
    · exact ih x h1

/-- A text of well-formed lines with pairwise distinct identifiers passes. -/
theorem linesPass_of_text (idss : List (List (List Char))) (ls : List (List Char))
    (ids : List (List Char)) (last : List Char)
    (hls : List.Forall₂ Line idss ls) (hlast : Line ids last)
    (hnd : (idss.flatten ++ ids).Nodup) :
    LinesPass reset (ls ++ lastLines last) := by
  rw [List.nodup_append] at hnd
  obtain ⟨n1, n2, n3⟩ := hnd
  obtain ⟨k1, k2, k3, _, k5⟩ := linesPass_of_lines reset idss ls hls rfl rfl n1
    (fun _ _ hm => absurd hm (Finset.not_mem_empty _))
  rw [linesPass_append]
  refine ⟨k1, ?_⟩
  unfold lastLines
  split
  · trivial
  · refine ⟨(feed_line _ ids last hlast (Or.inl k2) k3 n2 ?_).1, trivial⟩
    intro id hid hmem
    rcases k5 _ hmem with hm | hm
    · exact absurd hm (Finset.not_mem_empty _)
    · exact n3 hm hid

/-! ## What an accepted line looks like -/

theorem blank_append (u v : List Char) (hu : Blank u) (hv : Blank v) : Blank (u ++ v) := by
  intro c hc
  rcases List.mem_append.1 hc with h | h
  · exact hu c h
  · exact hv c h

theorem blank_singleton (c : Char) (h : isWhitespace c = true) (hn : c ≠ '\n') : Blank [c] := by
  intro d hd
  rw [List.mem_singleton.1 hd]
  exact blank_of_ws c h hn

theorem line_append_blank (ids : List (List Char)) (w ws : List Char) (h : Line ids w)
    (hb : Blank ws) : Line ids (w ++ ws) := by
  induction h with
  | blank u hu => exact Line.blank _ (blank_append u ws hu hb)
  | cons u id s ids rest hu hst _ ih =>
    rw [List.append_assoc]
    exact Line.cons u id s ids _ hu hst ih

theorem line_snoc (ids : List (List Char)) (w id s : List Char) (h : Line ids w)
    (hst : Statement id s) : Line (ids ++ [id]) (w ++ s) := by
  induction h with
  | blank u hu =>
    have := Line.cons u id s [] [] hu hst (Line.blank [] (by simp [Blank]))
    simpa using this
  | cons u id' s' ids rest hu hst' _ ih =>
    rw [List.append_assoc]
    exact Line.cons u id' s' _ _ hu hst' ih

theorem name_singleton (c : Char) (h : isStartChar c = true) : IsName [c] :=
  ⟨c, [], rfl, h, by simp⟩

theorem name_snoc (w : List Char) (c : Char) (h : IsName w) (hc : validTypeChars c = true) :
    IsName (w ++ [c]) := by
  obtain ⟨d, ds, rfl, hd, hds⟩ := h
  refine ⟨d, ds ++ [c], rfl, hd, ?_⟩
  intro x hx
  rcases List.mem_append.1 hx with h1 | h1
  · exact hds x h1
  · rw [List.mem_singleton.1 h1]; exact hc

/-- One step of the automaton on a character other than the line feed keeps
the description of the consumed text. -/
theorem consumed_step (a : DFAAnalyzer) (w : List Char) (c : Char)
    (h : Consumed a.currentState w) (hn : c ≠ '\n') :
    Consumed (processChar a c).currentState (w ++ [c]) := by
  cases hs : a.currentState
  all_goals rw [hs] at h
  · -- Q0
    by_cases hw : isWhitespace c = true
    · rw [processChar_Q0_ws a c hs hw, hs]
      exact blank_append w [c] h (blank_singleton c hw hn)
    · by_cases hc : isStartChar c = true
      · rw [processChar_start a c hc (Or.inl hs)]
        exact ⟨[], w, [c], rfl, Line.blank w h, name_singleton c hc⟩
      · have : (processChar a c).currentState = State.Q_ERROR := by
          unfold processChar; rw [hs]; simp [hw, hc]
        rw [this]; trivial
  · -- Q1
    obtain ⟨ids, pre, ty, rfl, hpre, hty⟩ := h
    by_cases hw : isWhitespace c = true
    · have : (processChar a c).currentState = State.Q2 := by
        unfold processChar; rw [hs]; simp [hw]
      rw [this]
      exact ⟨ids, pre, ty, [c], rfl, hpre, hty, blank_singleton c hw hn, by simp⟩
    · by_cases hv : validTypeChars c = true
      · have : (processChar a c).currentState = State.Q1 := by
          unfold processChar; rw [hs]
          simp [hw, hv, valid_ne_semi c hv, valid_ne_eq c hv, hs]
        rw [this]
        exact ⟨ids, pre, ty ++ [c], by simp, hpre, name_snoc ty c hty hv⟩
      · have : (processChar a c).currentState = State.Q_ERROR := by
          unfold processChar; rw [hs]
          dsimp only
          split_ifs <;> rfl
        rw [this]; trivial
  · -- Q2
    obtain ⟨ids, pre, ty, ws₁, rfl, hpre, hty, hw₁, hne⟩ := h
    by_cases hw : isWhitespace c = true
    · rw [processChar_blank_stay a c (blank_of_ws c hw hn) (by tauto), hs]
      exact ⟨ids, pre, ty, ws₁ ++ [c], by simp, hpre, hty,
        blank_append ws₁ [c] hw₁ (blank_singleton c hw hn), by simp⟩
    · by_cases hc : isStartChar c = true
      · have : (processChar a c).currentState = State.Q3 := by
          unfold processChar; rw [hs]; simp [hw, hc]
        rw [this]
        exact ⟨ids, pre, ty, ws₁, [c], rfl, hpre, hty, hw₁, hne, name_singleton c hc⟩
      · have : (processChar a c).currentState = State.Q_ERROR := by
          unfold processChar; rw [hs]; simp [hw, hc]
        rw [this]; trivial
  · -- Q3
    obtain ⟨ids, pre, ty, ws₁, id, rfl, hpre, hty, hw₁, hne, hid⟩ := h
    by_cases hw : isWhitespace c = true
    · by_cases hm : a.currentIdentifier ∈ a.declaredVariables
      · rw [processChar_Q3_dup a c hs hm (Or.inl hw)]; trivial
      · rw [processChar_ws_Q3 a c hs hm hw]
        exact ⟨ids, pre, ty, ws₁, id, [c], rfl, hpre, hty, hw₁, hne, hid,
          blank_singleton c hw hn⟩
    · by_cases h1 : c = ';'
      · by_cases hm : a.currentIdentifier ∈ a.declaredVariables
        · rw [processChar_Q3_dup a c hs hm (Or.inr (Or.inl h1))]; trivial
        · subst h1
          rw [processChar_semi_Q3 a hs hm]
          refine ⟨ids ++ [id], ?_⟩
          have hst := Statement.plain ty ws₁ id [] hty hw₁ hne hid (by simp [Blank])
          have := line_snoc ids pre id _ hpre hst
          simpa using this
      · by_cases h2 : c = '='
        · by_cases hm : a.currentIdentifier ∈ a.declaredVariables
          · rw [processChar_Q3_dup a c hs hm (Or.inr (Or.inr h2))]; trivial
          · subst h2
            rw [processChar_eq_Q3 a hs hm]
            exact ⟨ids, pre, ty, ws₁, id, [], [], by simp, hpre, hty, hw₁, hne, hid,
              by simp [Blank], by simp [IsExpr]⟩
        · by_cases hv : validTypeChars c = true
          · have : (processChar a c).currentState = State.Q3 := by
              unfold processChar; rw [hs]
              simp [hw, h1, h2, hv, validIdChars, hs]
            rw [this]
            exact ⟨ids, pre, ty, ws₁, id ++ [c], by simp, hpre, hty, hw₁, hne,
              name_snoc id c hid hv⟩
          · have : (processChar a c).currentState = State.Q_ERROR := by
              unfold processChar; rw [hs]
              simp [hw, h1, h2, hv, validIdChars]
            rw [this]; trivial
  · -- Q4
    obtain ⟨ids, pre, ty, ws₁, id, ws₂, rfl, hpre, hty, hw₁, hne, hid, hw₂⟩ := h
    by_cases hw : isWhitespace c = true
    · rw [processChar_blank_stay a c (blank_of_ws c hw hn) (by tauto), hs]
      exact ⟨ids, pre, ty, ws₁, id, ws₂ ++ [c], by simp, hpre, hty, hw₁, hne, hid,
        blank_append ws₂ [c] hw₂ (blank_singleton c hw hn)⟩
    · by_cases h1 : c = ';'
      · subst h1
        rw [processChar_semi_Q4 a hs]
        refine ⟨ids ++ [id], ?_⟩
        have hst := Statement.plain ty ws₁ id ws₂ hty hw₁ hne hid hw₂
        have := line_snoc ids pre id _ hpre hst
        simpa using this
      · by_cases h2 : c = '='
        · subst h2
          rw [processChar_eq_Q4 a hs]
          exact ⟨ids, pre, ty, ws₁, id, ws₂, [], by simp, hpre, hty, hw₁, hne, hid, hw₂,
            by simp [IsExpr]⟩
        · have : (processChar a c).currentState = State.Q_ERROR := by
            unfold processChar; rw [hs]; simp [hw, h1, h2]
          rw [this]; trivial
  · -- Q5
    obtain ⟨ids, pre, ty, ws₁, id, ws₂, e, rfl, hpre, hty, hw₁, hne, hid, hw₂, he⟩ := h
    by_cases h1 : c = ';'
    · subst h1
      rw [processChar_semi_Q5 a hs]
      refine ⟨ids ++ [id], ?_⟩
      have hst := Statement.init ty ws₁ id ws₂ e hty hw₁ hne hid hw₂ he
      have := line_snoc ids pre id _ hpre hst
      simpa using this
    · have : processChar a c = a := by
        unfold processChar; rw [hs]; simp [h1, hn]
      rw [this, hs]
      refine ⟨ids, pre, ty, ws₁, id, ws₂, e ++ [c], by simp, hpre, hty, hw₁, hne, hid, hw₂, ?_⟩
      intro d hd
      rcases List.mem_append.1 hd with h3 | h3
      · exact he d h3
      · rw [List.mem_singleton.1 h3]; exact ⟨h1, hn⟩
  · -- Q6
    obtain ⟨ids, hl⟩ := h
    by_cases hw : isWhitespace c = true
    · rw [processChar_blank_stay a c (blank_of_ws c hw hn) (by tauto), hs]
      exact ⟨ids, line_append_blank ids w [c] hl (blank_singleton c hw hn)⟩
    · by_cases hc : isStartChar c = true
      · rw [processChar_start a c hc (Or.inr hs)]
        exact ⟨ids, w, [c], rfl, hl, name_singleton c hc⟩
      · have : (processChar a c).currentState = State.Q_ERROR := by
          unfold processChar; rw [hs]; simp [hw, hc]
        rw [this]; trivial
  · -- Q_ERROR
    rw [processChar_of_error a c hs, hs]; trivial

theorem consumed_feed (a : DFAAnalyzer) (w l : List Char)
    (h : Consumed a.currentState w) (hn : '\n' ∉ l) :
    Consumed (feed a l).currentState (w ++ l) := by
  induction l generalizing a w with
  | nil => simpa [feed_nil] using h
  | cons c cs ih =>
    have hc : c ≠ '\n' := fun e => hn (by simp [e])
    have := ih (processChar a c) (w ++ [c]) (consumed_step a w c h hc)
      (fun e => hn (List.mem_cons_of_mem _ e))
    simpa [feed_cons] using this

/-- A line that takes the automaton from `Q0` to `Q0` or `Q6` is well formed. -/
theorem line_of_pass (a : DFAAnalyzer) (l : List Char) (h0 : a.currentState = State.Q0)
    (hn : '\n' ∉ l)
    (h : (feed a l).currentState = State.Q0 ∨ (feed a l).currentState = State.Q6) :
    ∃ ids, Line ids l := by
  have hc := consumed_feed a [] l (by rw [h0]; simp [Consumed, Blank]) hn
  rw [List.nil_append] at hc
  rcases h with h | h
  · rw [h] at hc
    exact ⟨[], Line.blank l hc⟩
  · rw [h] at hc
    exact hc

theorem lines_of_pass (a : DFAAnalyzer) (ls : List (List Char)) (h0 : a.currentState = State.Q0)
    (hn : ∀ l ∈ ls, '\n' ∉ l) (h : LinesPass a ls) : ∀ l ∈ ls, ∃ ids, Line ids l := by
  induction ls generalizing a with
  | nil => simp
  | cons x xs ih =>
    intro l hl
    rcases List.mem_cons.1 hl with h1 | h1
    · rw [h1]
      exact line_of_pass a x h0 (hn x (List.mem_cons_self _ _)) h.1
    · exact ih _ (processChar_newline_Q0 _ h.1)
        (fun y hy => hn y (List.mem_cons_of_mem _ hy)) h.2 l h1

theorem linesPass_of_success (input : List Char) (h : (scan input).success = true) :
    LinesPass reset (getLines input) := by
  rcases analyze_cases input with ⟨hp, -⟩ | ⟨pre, p, c, q, post, -, -, -, -, e⟩ |
      ⟨pre, l, post, -, -, -, -, -, -, e⟩
  · exact hp
  · rw [scan, e, failAt_success] at h; cases h
  · rw [scan, e] at h; cases h

/-! ## Lines and text -/

theorem unlines_getLines (input : List Char) :
    ∃ t, unlines (getLines input) = input ++ t ∧ t.length ≤ 1 := by
  obtain ⟨ls, last, e, hls, hlast⟩ := text_decomp input
  rw [e, getLines_unlines ls last hls hlast, unlines_append]
  by_cases h : last = []
  · exact ⟨[], by simp [lastLines, h, unlines], by simp⟩
  · exact ⟨['\n'], by simp [lastLines, h, unlines], by simp⟩

/-- A line that `std::getline` delivers stands in the text behind the lines
before it, and is followed there by a line feed or by the end of the text. -/
theorem text_of_getLines (input : List Char) (pre : List (List Char)) (l : List Char)
    (post : List (List Char)) (e : getLines input = pre ++ l :: post) :
    ∃ rest, input = unlines pre ++ l ++ rest ∧ (rest = [] ∨ ∃ r, rest = '\n' :: r) := by
  obtain ⟨t, ht, hlen⟩ := unlines_getLines input
  rw [e, unlines_append] at ht
  simp only [unlines] at ht
  have h1 : unlines pre ++ l <+: input ++ t :=
    ⟨'\n' :: unlines post, by rw [← ht]; simp⟩
  have h2 : input <+: input ++ t := ⟨t, rfl⟩
  have hl : (unlines pre ++ l).length ≤ input.length := by
    have := congrArg List.length ht
    simp only [List.length_append, List.length_cons] at this ⊢
    omega
  obtain ⟨rest, hrest⟩ := List.prefix_of_prefix_length_le h1 h2 hl
  refine ⟨rest, hrest.symm, ?_⟩
  rw [← hrest, List.append_assoc, List.append_assoc] at ht
  have h3 := List.append_cancel_left (List.append_cancel_left ht)
  cases rest with
  | nil => exact Or.inl rfl
  | cons x r =>
    rw [List.cons_append] at h3
    injection h3 with h4 _
    exact Or.inr ⟨r, by rw [h4]⟩

/-- The lines of a text in which the line `l` follows the lines `pre`. -/
theorem getLines_of_text (pre : List (List Char)) (l rest : List Char)
    (hpre : ∀ x ∈ pre, '\n' ∉ x) (hl : '\n' ∉ l) (hne : l ≠ [])
    (hrest : rest = [] ∨ ∃ r, rest = '\n' :: r) :
    ∃ post, getLines (unlines pre ++ l ++ rest) = pre ++ l :: post := by
  rcases hrest with h | ⟨r, h⟩
  · subst h
    rw [List.append_nil, getLines_unlines pre l hpre hl]
    exact ⟨[], by simp [lastLines, hne]⟩
  · subst h
    obtain ⟨ls, last, e, hls, hlast⟩ := text_decomp r
    have e2 : unlines pre ++ l ++ '\n' :: r = unlines (pre ++ l :: ls) ++ last := by
      rw [e, unlines_append]; simp [unlines]
    rw [e2, getLines_unlines _ last (by
      intro x hx
      rcases List.mem_append.1 hx with h1 | h1
      · exact hpre x h1
      · rcases List.mem_cons.1 h1 with h2 | h2
        · rw [h2]; exact hl
        · exact hls x h2) hlast]
    exact ⟨ls ++ lastLines last, by simp⟩

theorem failAt_line (a : DFAAnalyzer) : (failAt a).line = a.currentLine := by
  unfold failAt; split <;> rfl

theorem failAt_position (a : DFAAnalyzer) : (failAt a).position = a.currentPos := by
  unfold failAt; split <;> rfl

theorem hasContentOf_iff (l : List Char) :
    hasContentOf l = true ↔ ∃ c ∈ l, isWhitespace c = false := by
  simp [hasContentOf]

/-- The end-of-line check on the line `l` behind the passing lines `L`. -/
theorem scan_missing (L : List (List Char)) (l rest : List Char)
    (hL : ∀ x ∈ L, '\n' ∉ x) (hl : '\n' ∉ l)
    (hrest : rest = [] ∨ ∃ r, rest = '\n' :: r)
    (hp : LinesPass reset L)
    (hc : ∃ c ∈ l, isWhitespace c = false)
    (h6 : (feed reset (unlines L ++ l)).currentState ≠ State.Q6)
    (h0 : (feed reset (unlines L ++ l)).currentState ≠ State.Q0)
    (he : (feed reset (unlines L ++ l)).currentState ≠ State.Q_ERROR) :
    scan (unlines L ++ l ++ rest) =
      { success := false, message := "Missing semicolon at end of line",
        line := L.length + 1, position := l.length, duplicateName := "" } := by
  have hne : l ≠ [] := by
    obtain ⟨c, hc, -⟩ := hc
    exact List.ne_nil_of_mem hc
  obtain ⟨post, hpost⟩ := getLines_of_text L l rest hL hl hne hrest
  rw [scan, analyze_of_missing _ L l post hpost hp ((hasContentOf_iff l).2 hc) h6 h0 he]
  simp [missingAt, Nat.add_comm]

theorem linesPass_of_success_unlines (L : List (List Char)) (hL : ∀ x ∈ L, '\n' ∉ x)
    (hok : (scan (unlines L)).success = true) : LinesPass reset L := by
  have hp := linesPass_of_success _ hok
  have hg := getLines_unlines L [] hL (by simp)
  rw [List.append_nil] at hg
  rw [hg] at hp
  simpa [lastLines] using hp

/-- The automaton stands in `Q5` at the end of a line that breaks off inside
the expression of a declaration. -/
theorem feed_open_expression (idss : List (List (List Char))) (L : List (List Char))
    (ids : List (List Char)) (pfx ty ws₁ id ws₂ e : List Char)
    (hL : List.Forall₂ Line idss L) (hpfx : Line ids pfx)
    (hty : IsName ty) (hw₁ : Blank ws₁) (hne : ws₁ ≠ []) (hid : IsName id) (hw₂ : Blank ws₂)
    (he : IsExpr e) (hnd : (idss.flatten ++ ids ++ [id]).Nodup) :
    LinesPass reset L ∧
    (feed reset (unlines L ++ (pfx ++ ty ++ ws₁ ++ id ++ ws₂ ++ '=' :: e))).currentState
      = State.Q5 := by
  rw [List.nodup_append] at hnd
  obtain ⟨n12, -, n3⟩ := hnd
  rw [List.nodup_append] at n12
  obtain ⟨n1, n2, n4⟩ := n12
  obtain ⟨k1, k2, k3, _, k5⟩ := linesPass_of_lines reset idss L hL rfl rfl n1
    (fun _ _ hm => absurd hm (Finset.not_mem_empty _))
  obtain ⟨j1, j2, _, _, j5⟩ := feed_line (feed reset (unlines L)) ids pfx hpfx (Or.inl k2) k3 n2
    (by
      intro x hx hmem
      rcases k5 _ hmem with hm | hm
      · exact absurd hm (Finset.not_mem_empty _)
      · exact n4 hm hx)
  have hfresh : String.mk id ∉ (feed (feed reset (unlines L)) pfx).declaredVariables := by
    intro hmem
    rcases j5 _ hmem with hm | hm
    · rcases k5 _ hm with hm | hm
      · exact absurd hm (Finset.not_mem_empty _)
      · exact n3 (List.mem_append_left _ hm) (List.mem_singleton_self _)
    · exact n3 (List.mem_append_right _ hm) (List.mem_singleton_self _)
  refine ⟨k1, ?_⟩
  have e1 : pfx ++ ty ++ ws₁ ++ id ++ ws₂ ++ '=' :: e =
      pfx ++ (ty ++ ws₁ ++ id ++ ws₂ ++ '=' :: e) := by simp
  rw [e1, feed_append, feed_append,
    feed_init_head _ ty ws₁ id ws₂ e j1 j2 hfresh hty hw₁ hne hid hw₂ he]

/-! ## Single steps of the automaton -/

theorem not_start_of_not_valid (c : Char) (h : validTypeChars c = false) :
    isStartChar c = false := by
  cases hs : isStartChar c
  · rfl
  · rw [start_valid c hs] at h; cases h

theorem processChar_valid_Q3 (a : DFAAnalyzer) (c : Char) (hs : a.currentState = State.Q3)
    (hc : validIdChars c = true) :
    processChar a c = { a with currentIdentifier := a.currentIdentifier.push c } := by
  have hv : validTypeChars c = true := hc
  unfold processChar
  rw [hs]
  simp [valid_not_ws c hv, valid_ne_semi c hv, valid_ne_eq c hv, hc]

theorem processChar_other_Q5 (a : DFAAnalyzer) (c : Char) (hs : a.currentState = State.Q5)
    (h1 : c ≠ ';') (h2 : c ≠ '\n') : processChar a c = a := by
  unfold processChar
  rw [hs]
  simp [h1, h2]

theorem processChar_newline_Q5 (a : DFAAnalyzer) (hs : a.currentState = State.Q5) :
    processChar a '\n' = { a with currentState := State.Q_ERROR } := by
  unfold processChar
  rw [hs]
  simp

theorem processChar_ws_Q1 (a : DFAAnalyzer) (c : Char) (hs : a.currentState = State.Q1)
    (hw : isWhitespace c = true) : processChar a c = { a with currentState := State.Q2 } := by
  unfold processChar
  rw [hs]
  simp [hw]

theorem processChar_ws_stay (a : DFAAnalyzer) (c : Char)
    (hs : a.currentState = State.Q0 ∨ a.currentState = State.Q2 ∨ a.currentState = State.Q4)
    (hw : isWhitespace c = true) : processChar a c = a := by
  unfold processChar
  rcases hs with h | h | h <;> rw [h] <;> simp [hw]

theorem processChar_term_Q1 (a : DFAAnalyzer) (c : Char) (hs : a.currentState = State.Q1)
    (hc : c = ';' ∨ c = '=') : processChar a c = { a with currentState := State.Q_ERROR } := by
  unfold processChar
  rw [hs]
  rcases hc with h | h <;> subst h <;> simp [isWhitespace]

theorem processChar_unrecognized (a : DFAAnalyzer) (c : Char)
    (hs : a.currentState ≠ State.Q5 ∧ a.currentState ≠ State.Q_ERROR)
    (hw : isWhitespace c = false) (hv : validTypeChars c = false)
    (h1 : c ≠ ';') (h2 : c ≠ '=') :
    processChar a c = { a with currentState := State.Q_ERROR } := by
  have hst := not_start_of_not_valid c hv
  unfold processChar
  cases h : a.currentState
  all_goals first
    | exact absurd h hs.1
    | exact absurd h hs.2
    | simp [hw, hv, hst, h1, h2, validIdChars]

theorem processChar_other_Q3 (a : DFAAnalyzer) (c : Char) (hs : a.currentState = State.Q3)
    (hw : ¬isWhitespace c = true) (h1 : c ≠ ';') (h2 : c ≠ '=') :
    processChar a c =
      if validIdChars c = true then { a with currentIdentifier := a.currentIdentifier.push c }
      else { a with currentState := State.Q_ERROR } := by
  unfold processChar
  rw [hs]
  simp [hw, h1, h2]

/-- The set `declaredVariables` after one step: a name enters it only in `Q3`,
on `;` or `=`, when the identifier is not yet in the set. -/
theorem processChar_declared (a : DFAAnalyzer) (c : Char) :
    (processChar a c).declaredVariables =
      if a.currentState = State.Q3 ∧ (c = ';' ∨ c = '=') ∧
          a.currentIdentifier ∉ a.declaredVariables then
        insert a.currentIdentifier a.declaredVariables
      else a.declaredVariables := by
  by_cases hs : a.currentState = State.Q3
  · by_cases hm : a.currentIdentifier ∈ a.declaredVariables
    · rw [if_neg (by tauto)]
      by_cases hw : isWhitespace c = true
      · rw [processChar_Q3_dup a c hs hm (Or.inl hw)]
      · by_cases h1 : c = ';'
        · rw [processChar_Q3_dup a c hs hm (Or.inr (Or.inl h1))]
        · by_cases h2 : c = '='
          · rw [processChar_Q3_dup a c hs hm (Or.inr (Or.inr h2))]
          · rw [processChar_other_Q3 a c hs hw h1 h2]
            split <;> rfl
    · by_cases h1 : c = ';'
      · subst h1
        rw [if_pos ⟨hs, Or.inl rfl, hm⟩, processChar_semi_Q3 a hs hm]
      · by_cases h2 : c = '='
        · subst h2
          rw [if_pos ⟨hs, Or.inr rfl, hm⟩, processChar_eq_Q3 a hs hm]
        · rw [if_neg (by tauto)]
          by_cases hw : isWhitespace c = true
          · rw [processChar_ws_Q3 a c hs hm hw]
          · rw [processChar_other_Q3 a c hs hw h1 h2]
            split <;> rfl
  · rw [if_neg (by tauto)]
    unfold processChar
    cases h : a.currentState
    all_goals first
      | exact absurd h hs
      | rfl
      | (dsimp only; split_ifs <;> rfl)

theorem fieldsInv_step (a : DFAAnalyzer) (c : Char) (h : FieldsInv a) :
    FieldsInv (processChar a c) := by
  obtain ⟨h1, h2⟩ := h
  unfold FieldsInv processChar checkForDuplicate
  cases hs : a.currentState <;> simp only [hs] at h1 h2 ⊢ <;> (try split_ifs) <;> simp_all

theorem fieldsInv_feed (a : DFAAnalyzer) (cs : List Char) (h : FieldsInv a) :
    FieldsInv (feed a cs) := by
  induction cs generalizing a with
  | nil => exact h
  | cons c cs ih => exact ih _ (fieldsInv_step a c h)

theorem fieldsInv_reset : FieldsInv reset := by
  unfold FieldsInv reset
  simp

/-- When the line loop ends normally from `Q0`, the automaton is in `Q0`. -/
theorem scanLines_ok_state (a : DFAAnalyzer) (ln ps : Nat) (ls : List (List Char))
    (b : DFAAnalyzer) (h0 : a.currentState = State.Q0)
    (h : scanLines (withCursor a ln ps) ls = Except.ok b) :
    b.currentState = State.Q0 := by
  rcases scanLines_cases a ls h0 with hA | ⟨pre, p, c, q, post, e, hpre, h1, h2⟩ |
      ⟨pre, l, post, e, hpre, hc, h6, hq0, he⟩
  · obtain ⟨ps2, hps⟩ := scanLines_ok a ln ps ls hA
    rw [hps] at h
    injection h with h
    rw [← h]
    exact linesPass_final_state a ls h0 hA
  · obtain ⟨ps2, hps⟩ := scanLines_prefix a ln ps pre (p ++ c :: q) post hpre
    rw [feed_append] at h1 h2
    rw [e, hps, scanLines_err _ _ _ p c q post h1 h2] at h
    cases h
  · obtain ⟨ps2, hps⟩ := scanLines_prefix a ln ps pre l post hpre
    rw [feed_append] at h6 hq0 he
    rw [e, hps, scanLines_missing _ _ _ l post hc h6 hq0 he] at h
    cases h

theorem failAt_message (a : DFAAnalyzer) :
    (failAt a).message = "Duplicate variable name" ∨ (failAt a).message = "Syntax error" := by
  unfold failAt
  split
  · exact Or.inl rfl
  · exact Or.inr rfl

/-! ## Where a reported duplicate comes from -/

/-- The recorded duplicate after one step: it is set only in `Q3`, on a
whitespace character, `;` or `=`, when the identifier is already declared. -/
theorem processChar_dup (a : DFAAnalyzer) (c : Char) :
    (processChar a c).duplicateVarName =
      if a.currentState = State.Q3 ∧ (isWhitespace c = true ∨ c = ';' ∨ c = '=') ∧
          a.currentIdentifier ∈ a.declaredVariables then
        a.currentIdentifier
      else a.duplicateVarName := by
  by_cases hs : a.currentState = State.Q3
  · by_cases hm : a.currentIdentifier ∈ a.declaredVariables
    · by_cases hc : isWhitespace c = true ∨ c = ';' ∨ c = '='
      · rw [if_pos ⟨hs, hc, hm⟩, processChar_Q3_dup a c hs hm hc]
      · rw [if_neg (by tauto)]
        push_neg at hc
        rw [processChar_other_Q3 a c hs hc.1 hc.2.1 hc.2.2]
        split <;> rfl
    · rw [if_neg (by tauto)]
      by_cases h1 : c = ';'
      · subst h1; rw [processChar_semi_Q3 a hs hm]
      · by_cases h2 : c = '='
        · subst h2; rw [processChar_eq_Q3 a hs hm]
        · by_cases hw : isWhitespace c = true
          · rw [processChar_ws_Q3 a c hs hm hw]
          · rw [processChar_other_Q3 a c hs hw h1 h2]
            split <;> rfl
  · rw [if_neg (by tauto)]
    unfold processChar
    cases h : a.currentState
    all_goals first
      | exact absurd h hs
      | rfl
      | (dsimp only; split_ifs <;> rfl)

/-- The automaton enters or stays in `Q3` only by appending a character to
`currentIdentifier`. -/
theorem step_into_Q3 (a : DFAAnalyzer) (c : Char)
    (h : (processChar a c).currentState = State.Q3) :
    (a.currentState = State.Q2 ∧ isStartChar c = true ∧
      processChar a c =
        { a with currentState := State.Q3,
                 currentIdentifier := a.currentIdentifier.push c }) ∨
    (a.currentState = State.Q3 ∧ validIdChars c = true ∧
      processChar a c = { a with currentIdentifier := a.currentIdentifier.push c }) := by
  cases hs : a.currentState
  all_goals
    revert h
    unfold processChar checkForDuplicate
    rw [hs]
    dsimp only
    try split_ifs
    all_goals simp_all

theorem committedIn_append (n text more : List Char) (h : CommittedIn n text) :
    CommittedIn n (text ++ more) := by
  obtain ⟨L, w, ty, ws₁, t, v, e, h1, h2, h3, h4, h5, h6⟩ := h
  exact ⟨L, w, ty, ws₁, t, v ++ more, by rw [e]; simp, h1, h2, h3, h4, h5, h6⟩

theorem scanInv_reset : ScanInv reset [] [] := by
  refine ⟨by simp, by simp [reset, Consumed, Blank], fieldsInv_reset, fun _ => rfl, ?_, ?_⟩
  · intro h; cases h
  · intro n hn; exact absurd hn (Finset.not_mem_empty _)

/-- One character other than the line feed keeps the invariant of the scan. -/
theorem scanInv_step (a : DFAAnalyzer) (L : List (List Char)) (w : List Char) (c : Char)
    (h : ScanInv a L w) (hn : c ≠ '\n') : ScanInv (processChar a c) L (w ++ [c]) := by
  obtain ⟨hL, hcons, hf, hdup, h3, hdecl⟩ := h
  refine ⟨hL, consumed_step a w c hcons hn, fieldsInv_step a c hf, ?_, ?_, ?_⟩
  · -- no duplicate recorded outside `Q_ERROR`
    intro hne
    have hane : a.currentState ≠ State.Q_ERROR := by
      intro he
      rw [processChar_of_error a c he] at hne
      exact hne he
    rw [processChar_dup]
    split
    · rename_i hc
      rw [processChar_Q3_dup a c hc.1 hc.2.2 hc.2.1] at hne
      exact absurd rfl hne
    · exact hdup hane
  · -- the identifier being read
    intro hq3
    rcases step_into_Q3 a c hq3 with ⟨hs, hstart, e⟩ | ⟨hs, hvalid, e⟩
    · have hid : a.currentIdentifier = "" := by
        by_contra hne
        rcases hf.1 hne with h | h | h <;> rw [hs] at h <;> cases h
      rw [hs] at hcons
      obtain ⟨ids, pre, ty, ws₁, rfl, hpre, hty, hw₁, hne⟩ := hcons
      refine ⟨ids, pre, ty, ws₁, [c], rfl, hpre, hty, hw₁, hne, name_singleton c hstart, ?_, ?_⟩
      · rw [e, hid]; rfl
      · rw [e]; exact hdecl
    · obtain ⟨ids, pre, ty, ws₁, id, rfl, hpre, hty, hw₁, hne, hid, hcur, hd⟩ := h3 hs
      refine ⟨ids, pre, ty, ws₁, id ++ [c], by simp, hpre, hty, hw₁, hne,
        name_snoc id c hid hvalid, ?_, ?_⟩
      · rw [e, hcur]; rfl
      · rw [e]; exact hd
  · -- every declared name was committed
    intro n hmem
    rw [processChar_declared] at hmem
    split at hmem
    · rename_i hc
      rcases Finset.mem_insert.1 hmem with hm | hm
      · obtain ⟨ids, pre, ty, ws₁, id, rfl, hpre, hty, hw₁, hne, -, hcur, -⟩ := h3 hc.1
        rw [hm, hcur]
        exact ⟨L, pre, ty, ws₁, c, [], by simp, hL, ⟨ids, hpre⟩, hty, hw₁, hne, hc.2.1⟩
      · have := committedIn_append _ _ [c] (hdecl n hm)
        rwa [List.append_assoc] at this
    · have := committedIn_append _ _ [c] (hdecl n hmem)
      rwa [List.append_assoc] at this

theorem scanInv_feed (a : DFAAnalyzer) (L : List (List Char)) (w l : List Char)
    (h : ScanInv a L w) (hn : '\n' ∉ l) : ScanInv (feed a l) L (w ++ l) := by
  induction l generalizing a w with
  | nil => simpa [feed_nil] using h
  | cons c cs ih =>
    have hc : c ≠ '\n' := fun e => hn (by simp [e])
    have := ih (processChar a c) (w ++ [c]) (scanInv_step a L w c h hc)
      (fun e => hn (List.mem_cons_of_mem _ e))
    simpa [feed_cons] using this

/-- The line feed at the end of a line that passes keeps the invariant. -/
theorem scanInv_newline (a : DFAAnalyzer) (L : List (List Char)) (w : List Char)
    (h : ScanInv a L w)
    (hs : a.currentState = State.Q0 ∨ a.currentState = State.Q6) :
    ScanInv (processChar a '\n') (L ++ [w]) [] := by
  obtain ⟨hL, hcons, hf, hdup, -, hdecl⟩ := h
  have hline : ∃ ids, Line ids w := by
    rcases hs with h | h
    · rw [h] at hcons; exact ⟨[], Line.blank w hcons⟩
    · rw [h] at hcons; exact hcons
  have hne : a.currentState ≠ State.Q_ERROR := by
    rcases hs with h | h <;> rw [h] <;> decide
  rw [processChar_newline_pass a hs]
  refine ⟨?_, by simp [Consumed, Blank], ?_, fun _ => hdup hne, fun h => (by cases h), ?_⟩
  · intro l hl
    rcases List.mem_append.1 hl with h | h
    · exact hL l h
    · rw [List.mem_singleton.1 h]; exact hline
  · have := hf.2 hs
    exact ⟨fun h => absurd this.2 h, fun _ => this⟩
  · intro n hmem
    have := committedIn_append _ _ ['\n'] (hdecl n hmem)
    rw [unlines_append]
    simpa [unlines] using this

theorem scanInv_lines (a : DFAAnalyzer) (L pre : List (List Char))
    (h : ScanInv a L []) (hp : LinesPass a pre) (hn : ∀ x ∈ pre, '\n' ∉ x) :
    ScanInv (feed a (unlines pre)) (L ++ pre) [] := by
  induction pre generalizing a L with
  | nil => simpa [unlines, feed_nil] using h
  | cons x pre ih =>
    have h1 := scanInv_feed a L [] x h (hn x (List.mem_cons_self _ _))
    rw [List.nil_append] at h1
    have h2 := scanInv_newline (feed a x) L x h1 hp.1
    have h3 := ih (processChar (feed a x) '\n') (L ++ [x]) h2 hp.2
      (fun y hy => hn y (List.mem_cons_of_mem _ hy))
    rw [feed_unlines_cons]
    simpa using h3

theorem failAt_duplicateName (a : DFAAnalyzer) :
    (failAt a).duplicateName = a.duplicateVarName := by
  unfold failAt
  split
  · rfl
  · rename_i h
    simp only [ne_eq, not_not] at h
    rw [h]

/-- The analyzer just before the character that makes the scan report a
duplicate: it reads, in `Q3`, an identifier that is already declared. -/
theorem duplicate_origin (pre : List (List Char)) (p : List Char) (c : Char)
    (hpre : LinesPass reset pre) (hn : ∀ x ∈ pre, '\n' ∉ x) (hp : '\n' ∉ p)
    (h1 : (feed reset (unlines pre ++ p)).currentState ≠ State.Q_ERROR)
    (hd : (feed reset (unlines pre ++ (p ++ [c]))).duplicateVarName ≠ "") :
    ∃ ids w ty ws₁ id, p = w ++ ty ++ ws₁ ++ id ∧ Line ids w ∧ IsName ty ∧ Blank ws₁ ∧
      ws₁ ≠ [] ∧ IsName id ∧
      (feed reset (unlines pre ++ (p ++ [c]))).duplicateVarName = String.mk id ∧
      CommittedIn id (unlines pre ++ (w ++ ty ++ ws₁)) := by
  have inv0 := scanInv_lines reset [] pre scanInv_reset hpre hn
  have inv := scanInv_feed _ _ [] p inv0 hp
  rw [List.nil_append, List.nil_append, ← feed_append] at inv
  obtain ⟨-, -, -, hdup, h3, -⟩ := inv
  have e : feed reset (unlines pre ++ (p ++ [c])) =
      processChar (feed reset (unlines pre ++ p)) c := by
    rw [← List.append_assoc, feed_append, feed_cons, feed_nil]
  rw [e, processChar_dup] at hd ⊢
  split at hd
  · rename_i hc
    obtain ⟨ids, w, ty, ws₁, id, hw, hl, hty, hw₁, hne, hid, hcur, hcom⟩ := h3 hc.1
    refine ⟨ids, w, ty, ws₁, id, hw, hl, hty, hw₁, hne, hid, ?_, ?_⟩
    · rw [if_pos hc, hcur]
    · have := hcom _ hc.2.2
      rwa [hcur] at this
  · exact absurd (hdup h1) hd

/-! ## Line breaks inside a declaration -/

/-- C1: a text whose lines `ls` (each ended by a line feed) and final line
`last` (with or without line feed after it) each consist of zero or more
statements `type id ;` or `type id = expr ;`, with optional blanks around the
tokens and with all identifiers pairwise distinct over the whole text, is
scanned from the reset state with success; the statements may stand one per
line or many per line. -/

theorem C1_wellformed_succeeds (idss : List (List (List Char))) (ls : List (List Char))
    (ids : List (List Char)) (last : List Char)
    (hls : List.Forall₂ Line idss ls) (hlast : Line ids last)
    (hnd : (idss.flatten ++ ids).Nodup) :
    (scan (unlines ls ++ last)).success = true ∧
    (scan (unlines ls ++ last)).message = "Correct variable declaration" := by
  have hp := linesPass_of_text idss ls ids last hls hlast hnd
  rw [← getLines_unlines ls last (lines_no_newline idss ls hls)
    (line_no_newline ids last hlast)] at hp
  obtain ⟨ps, hps⟩ := analyze_of_pass _ hp
  simp [scan, hps, okResult]

theorem C1_wellformed_succeeds_witness :
    List.Forall₂ Line [[['x']], [['y'], ['z']]]
      [['i', 'n', 't', ' ', 'x', ';'],
       ['f', 'l', 'o', 'a', 't', ' ', 'y', ' ', '=', '2', '+', '3', ';', ' ',
        'i', 'n', 't', '\t', 'z', ' ', ';']] ∧
    Line [['w']] ['i', 'n', 't', ' ', 'w', '=', '5', ';'] ∧
    ([[['x']], [['y'], ['z']]].flatten ++ [['w']]).Nodup ∧
    ((scan (unlines [['i', 'n', 't', ' ', 'x', ';'],
       ['f', 'l', 'o', 'a', 't', ' ', 'y', ' ', '=', '2', '+', '3', ';', ' ',
        'i', 'n', 't', '\t', 'z', ' ', ';']] ++
        ['i', 'n', 't', ' ', 'w', '=', '5', ';'])).success = true ∧
     (scan (unlines [['i', 'n', 't', ' ', 'x', ';'],
       ['f', 'l', 'o', 'a', 't', ' ', 'y', ' ', '=', '2', '+', '3', ';', ' ',
        'i', 'n', 't', '\t', 'z', ' ', ';']] ++
        ['i', 'n', 't', ' ', 'w', '=', '5', ';'])).message = "Correct variable declaration") :=
  have h1 : Line [['x']] ['i', 'n', 't', ' ', 'x', ';'] :=
    Line.cons [] ['x'] _ [] [] (by simp [Blank])
      (Statement.plain ['i', 'n', 't'] [' '] ['x'] []
        ⟨'i', ['n', 't'], rfl, by decide, by decide⟩ (by simp [Blank]) (by simp)
        ⟨'x', [], rfl, by decide, by decide⟩ (by simp [Blank]))
      (Line.blank [] (by simp [Blank]))
  have h2 : Line [['y'], ['z']]
      ['f', 'l', 'o', 'a', 't', ' ', 'y', ' ', '=', '2', '+', '3', ';', ' ',
        'i', 'n', 't', '\t', 'z', ' ', ';'] :=
    Line.cons [] ['y'] _ [['z']] _ (by simp [Blank])
      (Statement.init ['f', 'l', 'o', 'a', 't'] [' '] ['y'] [' '] ['2', '+', '3']
        ⟨'f', ['l', 'o', 'a', 't'], rfl, by decide, by decide⟩ (by simp [Blank]) (by simp)
        ⟨'y', [], rfl, by decide, by decide⟩ (by simp [Blank]) (by simp [IsExpr]))
      (Line.cons [' '] ['z'] _ [] [] (by simp [Blank])
        (Statement.plain ['i', 'n', 't'] ['\t'] ['z'] [' ']
          ⟨'i', ['n', 't'], rfl, by decide, by decide⟩ (by simp [Blank]) (by simp)
          ⟨'z', [], rfl, by decide, by decide⟩ (by simp [Blank]))
        (Line.blank [] (by simp [Blank])))
  have h3 : Line [['w']] ['i', 'n', 't', ' ', 'w', '=', '5', ';'] :=
    Line.cons [] ['w'] _ [] [] (by simp [Blank])
      (Statement.init ['i', 'n', 't'] [' '] ['w'] [] ['5']
        ⟨'i', ['n', 't'], rfl, by decide, by decide⟩ (by simp [Blank]) (by simp)
        ⟨'w', [], rfl, by decide, by decide⟩ (by simp [Blank]) (by simp [IsExpr]))
      (Line.blank [] (by simp [Blank]))
  have h4 : ([[['x']], [['y'], ['z']]].flatten ++ [['w']]).Nodup := by decide
  ⟨List.Forall₂.cons h1 (List.Forall₂.cons h2 List.Forall₂.nil), h3, h4,
    C1_wellformed_succeeds _ _ _ _
      (List.Forall₂.cons h1 (List.Forall₂.cons h2 List.Forall₂.nil)) h3 h4⟩

/-- C2: acceptance is sound.  When a scan from the reset state returns success,
the input is a sequence of lines, each ended by a line feed, and a final part,
none of them holding a line feed, and each of them is a sequence of zero or
more complete declarations `type id [= expr] ;` with optional blanks before,
between and after them (so a line without declaration is blank, and no
declaration spans two lines). -/

theorem C2_acceptance_sound (input : List Char) (h : (scan input).success = true) :
    ∃ ls last, input = unlines ls ++ last ∧
      (∀ l ∈ ls, ∃ ids, Line ids l) ∧ (∃ ids, Line ids last) ∧
      (∀ l ∈ ls, '\n' ∉ l) ∧ '\n' ∉ last := by
  obtain ⟨ls, last, e, hls, hlast⟩ := text_decomp input
  have hp := linesPass_of_success input h
  rw [e, getLines_unlines ls last hls hlast] at hp
  have hall := lines_of_pass reset (ls ++ lastLines last) rfl (by
    intro l hl
    rcases List.mem_append.1 hl with h1 | h1
    · exact hls l h1
    · rw [mem_lastLines last l h1]; exact hlast) hp
  refine ⟨ls, last, e, fun l hl => hall l (List.mem_append_left _ hl), ?_, hls, hlast⟩
  by_cases hl : last = []
  · exact ⟨[], by rw [hl]; exact Line.blank [] (by simp [Blank])⟩
  · exact hall last (List.mem_append_right _ (by simp [lastLines, hl]))

theorem C2_acceptance_sound_witness :
    (scan "int x;\n float y = 1 ; char z ;\n\nlong w;".data).success = true ∧
    ∃ ls last, "int x;\n float y = 1 ; char z ;\n\nlong w;".data = unlines ls ++ last ∧
      (∀ l ∈ ls, ∃ ids, Line ids l) ∧ (∃ ids, Line ids last) ∧
      (∀ l ∈ ls, '\n' ∉ l) ∧ '\n' ∉ last :=
  ⟨by decide, C2_acceptance_sound _ (by decide)⟩

/-- C3 (the code departs from it): the second declaration of `x` in
`int x ;` / `int x;` is not reported, because the first one, written with a
blank before its `;`, never entered `declaredVariables`; written without that
blank the duplicate is reported at line 2, position 5. -/

theorem C3_duplicate_after_blank_missed :
    scan "int x ;\nint x;\n".data =
      { success := true, message := "Correct variable declaration",
        line := 0, position := 0, duplicateName := "" } ∧
    scan "int x;\nint x;\n".data =
      { success := false, message := "Duplicate variable name",
        line := 2, position := 5, duplicateName := "x" } := by
  decide

/-- C4: when the lines `L` before line `k = L.length + 1` are scanned with
success, and line `k` holds a character that is not whitespace, drives the
automaton into no error and leaves it outside `Q6` and `Q0` after its last
character, the scan returns "Missing semicolon at end of line" with line `k`,
whatever follows line `k`. -/

theorem C4_missing_semicolon (L : List (List Char)) (l rest : List Char)
    (hL : ∀ x ∈ L, '\n' ∉ x) (hl : '\n' ∉ l)
    (hrest : rest = [] ∨ ∃ r, rest = '\n' :: r)
    (hok : (scan (unlines L)).success = true)
    (hc : ∃ c ∈ l, isWhitespace c = false)
    (h6 : (feed reset (unlines L ++ l)).currentState ≠ State.Q6)
    (h0 : (feed reset (unlines L ++ l)).currentState ≠ State.Q0)
    (he : (feed reset (unlines L ++ l)).currentState ≠ State.Q_ERROR) :
    scan (unlines L ++ l ++ rest) =
      { success := false, message := "Missing semicolon at end of line",
        line := L.length + 1, position := l.length, duplicateName := "" } := by
  exact scan_missing L l rest hL hl hrest (linesPass_of_success_unlines L hL hok) hc h6 h0 he

theorem C4_missing_semicolon_witness :
    (∀ x ∈ ["int x;".data, "".data], '\n' ∉ x) ∧ '\n' ∉ "int y = 1".data ∧
    ("\n+ 2;\n".data = [] ∨ ∃ r, "\n+ 2;\n".data = '\n' :: r) ∧
    (scan (unlines ["int x;".data, "".data])).success = true ∧
    (∃ c ∈ "int y = 1".data, isWhitespace c = false) ∧
    (feed reset (unlines ["int x;".data, "".data] ++ "int y = 1".data)).currentState
      ≠ State.Q6 ∧
    (feed reset (unlines ["int x;".data, "".data] ++ "int y = 1".data)).currentState
      ≠ State.Q0 ∧
    (feed reset (unlines ["int x;".data, "".data] ++ "int y = 1".data)).currentState
      ≠ State.Q_ERROR ∧
    scan (unlines ["int x;".data, "".data] ++ "int y = 1".data ++ "\n+ 2;\n".data) =
      { success := false, message := "Missing semicolon at end of line",
        line := ["int x;".data, "".data].length + 1, position := "int y = 1".data.length,
        duplicateName := "" } :=
  ⟨by decide, by decide, Or.inr ⟨_, rfl⟩, by decide, by decide, by decide, by decide, by decide,
    C4_missing_semicolon _ _ _ (by decide) (by decide) (Or.inr ⟨_, rfl⟩) (by decide)
      (by decide) (by decide) (by decide) (by decide)⟩

/-- C5: when a scan from the reset state returns "Syntax error" or "Duplicate
variable name", the input holds lines `pre`, each ended by a line feed, and
then a line `p ++ c :: q`, such that the reported line is the 1-based index
`pre.length + 1` of that line, the reported position is the 0-based index
`p.length` of `c` in it, consuming `c` moves the automaton into `Q_ERROR`, every
text before `c` is consumed without error, and every line of `pre` passes the
end-of-line check. -/

theorem C5_error_location (input : List Char)
    (h : (scan input).message = "Syntax error" ∨
      (scan input).message = "Duplicate variable name") :
    ∃ (pre : List (List Char)) (p : List Char) (c : Char) (q rest : List Char),
      input = unlines pre ++ (p ++ c :: q) ++ rest ∧
      (rest = [] ∨ ∃ r, rest = '\n' :: r) ∧
      (∀ x ∈ pre, '\n' ∉ x) ∧ '\n' ∉ p ++ c :: q ∧
      (scan input).line = pre.length + 1 ∧
      (scan input).position = p.length ∧
      (feed reset (unlines pre ++ p ++ [c])).currentState = State.Q_ERROR ∧
      (∀ t, t <+: unlines pre ++ p → (feed reset t).currentState ≠ State.Q_ERROR) ∧
      LinesPass reset pre := by
  rcases analyze_cases input with ⟨-, ps, e⟩ | ⟨pre, p, c, q, post, hg, hpre, h1, h2, e⟩ |
      ⟨pre, l, post, -, -, -, -, -, -, e⟩
  · rw [scan, e] at h
    revert h; simp [okResult]
  · obtain ⟨rest, hin, hrest⟩ := text_of_getLines input pre (p ++ c :: q) post hg
    have hmem : ∀ x ∈ getLines input, '\n' ∉ x :=
      fun x hx hn => (mem_getLines input x '\n' hx hn).2 rfl
    refine ⟨pre, p, c, q, rest, hin, hrest, ?_, ?_, ?_, ?_, ?_, ?_, hpre⟩
    · exact fun x hx => hmem x (by rw [hg]; exact List.mem_append_left _ hx)
    · exact hmem _ (by rw [hg]; simp)
    · rw [scan, e, failAt_line]; simp [Nat.add_comm]
    · rw [scan, e, failAt_position]; rfl
    · rw [List.append_assoc]; exact h2
    · rintro t ⟨u, hu⟩ ht
      rw [← hu, feed_append] at h1
      exact state_ne_error_of_feed _ _ h1 ht
  · rw [scan, e] at h
    revert h; simp [missingAt]

theorem C5_error_location_witness :
    ((scan "int 1x;".data).message = "Syntax error" ∨
      (scan "int 1x;".data).message = "Duplicate variable name") ∧
    (scan "int 1x;".data).line = 1 ∧ (scan "int 1x;".data).position = 4 ∧
    "int 1x;".data.get? 4 = some '1' ∧
    ∃ (pre : List (List Char)) (p : List Char) (c : Char) (q rest : List Char),
      "int 1x;".data = unlines pre ++ (p ++ c :: q) ++ rest ∧
      (rest = [] ∨ ∃ r, rest = '\n' :: r) ∧
      (∀ x ∈ pre, '\n' ∉ x) ∧ '\n' ∉ p ++ c :: q ∧
      (scan "int 1x;".data).line = pre.length + 1 ∧
      (scan "int 1x;".data).position = p.length ∧
      (feed reset (unlines pre ++ p ++ [c])).currentState = State.Q_ERROR ∧
      (∀ t, t <+: unlines pre ++ p → (feed reset t).currentState ≠ State.Q_ERROR) ∧
      LinesPass reset pre :=
  ⟨Or.inl (by decide), by decide, by decide, by decide,
    C5_error_location _ (Or.inl (by decide))⟩

/-- C6 (as stated it fails): for `int x = 1` followed by the line ` + 2;` the
scan does not return "Syntax error": the end-of-line check fires first and the
result is "Missing semicolon at end of line" at line 1. -/

theorem C6_not_a_syntax_error :
    scan "int x = 1\n + 2;".data =
      { success := false, message := "Missing semicolon at end of line",
        line := 1, position := 9, duplicateName := "" } ∧
    (scan "int x = 1\n + 2;".data).message ≠ "Syntax error" := by
  decide

/-- C6 (amended): when the lines `L` are well formed, and the next line
consists of well-formed declarations `pfx` and then `type id = e` with `e` free
of `;`, all identifiers so far being pairwise distinct, the scan returns the
failure "Missing semicolon at end of line", and the reported line is the line
that holds the break, whatever follows the line feed. -/

theorem C6_expression_break_missing_semicolon (idss : List (List (List Char)))
    (L : List (List Char)) (ids : List (List Char)) (pfx ty ws₁ id ws₂ e rest : List Char)
    (hL : List.Forall₂ Line idss L) (hpfx : Line ids pfx)
    (hty : IsName ty) (hw₁ : Blank ws₁) (hne : ws₁ ≠ []) (hid : IsName id) (hw₂ : Blank ws₂)
    (he : IsExpr e) (hnd : (idss.flatten ++ ids ++ [id]).Nodup)
    (hrest : rest = [] ∨ ∃ r, rest = '\n' :: r) :
    scan (unlines L ++ (pfx ++ ty ++ ws₁ ++ id ++ ws₂ ++ '=' :: e) ++ rest) =
      { success := false, message := "Missing semicolon at end of line",
        line := L.length + 1,
        position := (pfx ++ ty ++ ws₁ ++ id ++ ws₂ ++ '=' :: e).length,
        duplicateName := "" } := by
  obtain ⟨hp, h5⟩ := feed_open_expression idss L ids pfx ty ws₁ id ws₂ e hL hpfx hty hw₁ hne
    hid hw₂ he hnd
  apply scan_missing L _ rest (lines_no_newline idss L hL) ?_ hrest hp ?_
    (by rw [h5]; decide) (by rw [h5]; decide) (by rw [h5]; decide)
  · simp only [List.mem_append, List.mem_cons, not_or]
    exact ⟨⟨⟨⟨⟨line_no_newline ids pfx hpfx, name_no_newline ty hty⟩,
      blank_no_newline ws₁ hw₁⟩, name_no_newline id hid⟩, blank_no_newline ws₂ hw₂⟩,
      by decide, fun hm => (he _ hm).2 rfl⟩
  · exact ⟨'=', by simp, by decide⟩

theorem C6_expression_break_missing_semicolon_witness :
    List.Forall₂ Line [[['a']]] [['i', 'n', 't', ' ', 'a', ';']] ∧
    Line [] [' '] ∧ IsName ['i', 'n', 't'] ∧ Blank [' '] ∧ [' '] ≠ [] ∧ IsName ['x'] ∧
    Blank [' '] ∧ IsExpr [' ', '1'] ∧
    ([[['a']]].flatten ++ [] ++ [['x']]).Nodup ∧
    (['\n', ' ', '+', ' ', '2', ';'] = [] ∨
      ∃ r, ['\n', ' ', '+', ' ', '2', ';'] = '\n' :: r) ∧
    scan (unlines [['i', 'n', 't', ' ', 'a', ';']] ++
        ([' '] ++ ['i', 'n', 't'] ++ [' '] ++ ['x'] ++ [' '] ++ '=' :: [' ', '1']) ++
        ['\n', ' ', '+', ' ', '2', ';']) =
      { success := false, message := "Missing semicolon at end of line",
        line := [['i', 'n', 't', ' ', 'a', ';']].length + 1,
        position :=
          ([' '] ++ ['i', 'n', 't'] ++ [' '] ++ ['x'] ++ [' '] ++ '=' :: [' ', '1']).length,
        duplicateName := "" } :=
  have h1 : Line [['a']] ['i', 'n', 't', ' ', 'a', ';'] :=
    Line.cons [] ['a'] _ [] [] (by simp [Blank])
      (Statement.plain ['i', 'n', 't'] [' '] ['a'] []
        ⟨'i', ['n', 't'], rfl, by decide, by decide⟩ (by simp [Blank]) (by simp)
        ⟨'a', [], rfl, by decide, by decide⟩ (by simp [Blank]))
      (Line.blank [] (by simp [Blank]))
  have h2 : Line [] [' '] := Line.blank _ (by simp [Blank])
  have h3 : IsName ['i', 'n', 't'] := ⟨'i', ['n', 't'], rfl, by decide, by decide⟩
  have h4 : Blank [' '] := by simp [Blank]
  have h5 : IsName ['x'] := ⟨'x', [], rfl, by decide, by decide⟩
  have h6 : IsExpr [' ', '1'] := by simp [IsExpr]
  have h7 : ([[['a']]].flatten ++ [] ++ [['x']]).Nodup := by decide
  ⟨List.Forall₂.cons h1 List.Forall₂.nil, h2, h3, h4, by simp, h5, h4, h6, h7,
    Or.inr ⟨_, rfl⟩,
    C6_expression_break_missing_semicolon _ _ _ _ _ _ _ _ _ _
      (List.Forall₂.cons h1 List.Forall₂.nil) h2 h3 h4 (by simp) h5 h4 h6 h7
      (Or.inr ⟨_, rfl⟩)⟩

/-- C7: every input made only of whitespace characters (space, tab, carriage
return, line feed), the empty input included, is scanned from the reset state
with success. -/

theorem C7_whitespace_only_succeeds (input : List Char)
    (h : ∀ c ∈ input, isWhitespace c = true) :
    (scan input).success = true ∧ (scan input).message = "Correct variable declaration" := by
  have hp : LinesPass reset (getLines input) := by
    apply linesPass_noContent reset _ rfl
    intro l hl
    simp only [hasContentOf, List.any_eq_false, Bool.not_eq_true', Bool.not_eq_false]
    intro c hc
    exact h c (mem_getLines input l c hl hc).1
  obtain ⟨ps, hps⟩ := analyze_of_pass input hp
  simp [scan, hps, okResult]

theorem C7_whitespace_only_succeeds_witness :
    (∀ c ∈ " \t\r\n\n  \n".data, isWhitespace c = true) ∧
    ((scan " \t\r\n\n  \n".data).success = true ∧
      (scan " \t\r\n\n  \n".data).message = "Correct variable declaration") :=
  ⟨by decide, C7_whitespace_only_succeeds _ (by decide)⟩

/-- C8: the result of a scan from the reset state carries a non-empty
`duplicateName` exactly when it is the failure "Duplicate variable name";
`duplicateName` is empty on success and on every other failure, and on
success `line` and `position` are both 0. -/

theorem C8_duplicateName_iff (input : List Char) :
    ((scan input).duplicateName ≠ "" ↔
      ((scan input).success = false ∧ (scan input).message = "Duplicate variable name")) ∧
    ((scan input).success = true →
      (scan input).duplicateName = "" ∧ (scan input).line = 0 ∧ (scan input).position = 0) ∧
    ((scan input).success = false → (scan input).message ≠ "Duplicate variable name" →
      (scan input).duplicateName = "") := by
  rcases analyze_cases input with ⟨-, ps, h⟩ | ⟨pre, p, c, q, post, -, -, -, -, h⟩ |
      ⟨pre, l, post, -, -, -, -, -, -, h⟩
  · simp only [scan, h, okResult]
    decide
  · simp only [scan, h]
    refine ⟨?_, ?_, ?_⟩
    · rw [failAt_dup_iff]
      simp [failAt_success]
    · simp [failAt_success]
    · intro _ hm
      by_contra hd
      exact hm ((failAt_dup_iff _).1 hd)
  · simp only [scan, h, missingAt]
    refine ⟨?_, ?_, ?_⟩
    · simp
    · simp
    · intro _ _; trivial

/-- C9 (the code departs from it): after the successful scan of `int x ;` the
set `declaredVariables` is empty, although the input declares `x`; the same
declaration written `int x;` leaves the set `{x}`. -/

theorem C9_declared_names_after_blank_missing :
    (scan "int x ;\n".data).success = true ∧
    (scanFinal "int x ;\n".data).declaredVariables = ∅ ∧
    (scanFinal "int x;\n".data).declaredVariables = {"x"} := by
  decide

/-- C10: in `Q_ERROR` the automaton is frozen: `processChar` returns the
analyzer as it was, so the automaton state, `declaredVariables`, `currentType`,
`currentIdentifier` and `duplicateVarName` are all unchanged. -/

theorem C10_error_absorbing (a : DFAAnalyzer) (c : Char)
    (h : a.currentState = State.Q_ERROR) :
    processChar a c = a ∧
    (processChar a c).currentState = State.Q_ERROR ∧
    (processChar a c).declaredVariables = a.declaredVariables ∧
    (processChar a c).currentType = a.currentType ∧
    (processChar a c).currentIdentifier = a.currentIdentifier ∧
    (processChar a c).duplicateVarName = a.duplicateVarName := by
  rw [processChar_of_error a c h]
  exact ⟨rfl, h, rfl, rfl, rfl, rfl⟩

theorem C10_error_absorbing_witness :
    (feed reset "int x;int x;".data).currentState = State.Q_ERROR ∧
    (processChar (feed reset "int x;int x;".data) 'y' = feed reset "int x;int x;".data ∧
    (processChar (feed reset "int x;int x;".data) 'y').currentState = State.Q_ERROR ∧
    (processChar (feed reset "int x;int x;".data) 'y').declaredVariables =
      (feed reset "int x;int x;".data).declaredVariables ∧
    (processChar (feed reset "int x;int x;".data) 'y').currentType =
      (feed reset "int x;int x;".data).currentType ∧
    (processChar (feed reset "int x;int x;".data) 'y').currentIdentifier =
      (feed reset "int x;int x;".data).currentIdentifier ∧
    (processChar (feed reset "int x;int x;".data) 'y').duplicateVarName =
      (feed reset "int x;int x;".data).duplicateVarName) :=
  ⟨by decide, C10_error_absorbing _ 'y' (by decide)⟩

/-- C11: in `Q3`, when `currentIdentifier` is already in `declaredVariables`,
consuming a whitespace character, `;` or `=` moves the automaton to `Q_ERROR`,
records `currentIdentifier` as the duplicate name and leaves `declaredVariables`
unchanged; consuming a character of `[A-Za-z0-9_]` makes no check: it only
appends the character to `currentIdentifier`, declared name or not. -/
theorem C11_duplicate_check_on_finalisation (a : DFAAnalyzer) (c : Char)
    (hs : a.currentState = State.Q3) :
    (a.currentIdentifier ∈ a.declaredVariables →
      (isWhitespace c = true ∨ c = ';' ∨ c = '=') →
      (processChar a c).currentState = State.Q_ERROR ∧
      (processChar a c).duplicateVarName = a.currentIdentifier ∧
      (processChar a c).declaredVariables = a.declaredVariables) ∧
    (validIdChars c = true →
      processChar a c = { a with currentIdentifier := a.currentIdentifier.push c }) := by
  refine ⟨fun hm hc => ?_, fun hc => processChar_valid_Q3 a c hs hc⟩
  rw [processChar_Q3_dup a c hs hm hc]
  exact ⟨rfl, rfl, rfl⟩

theorem C11_duplicate_check_on_finalisation_witness :
    (feed reset "int x;int x".data).currentState = State.Q3 ∧
    (((feed reset "int x;int x".data).currentIdentifier ∈
        (feed reset "int x;int x".data).declaredVariables →
      (isWhitespace ';' = true ∨ ';' = ';' ∨ ';' = '=') →
      (processChar (feed reset "int x;int x".data) ';').currentState = State.Q_ERROR ∧
      (processChar (feed reset "int x;int x".data) ';').duplicateVarName =
        (feed reset "int x;int x".data).currentIdentifier ∧
      (processChar (feed reset "int x;int x".data) ';').declaredVariables =
        (feed reset "int x;int x".data).declaredVariables) ∧
    (validIdChars ';' = true →
      processChar (feed reset "int x;int x".data) ';' =
        { feed reset "int x;int x".data with
          currentIdentifier := (feed reset "int x;int x".data).currentIdentifier.push ';' })) :=
  ⟨by decide, C11_duplicate_check_on_finalisation _ ';' (by decide)⟩

/-- C12: in `Q5` every character other than `;` and the line feed leaves the
whole analyzer unchanged; `;` moves the automaton to `Q6`; the line feed moves
it to `Q_ERROR`. -/
theorem C12_expression_accepts_any (a : DFAAnalyzer) (c : Char)
    (hs : a.currentState = State.Q5) :
    (c ≠ ';' → c ≠ '\n' → processChar a c = a) ∧
    (processChar a ';').currentState = State.Q6 ∧
    (processChar a '\n').currentState = State.Q_ERROR := by
  refine ⟨fun h1 h2 => processChar_other_Q5 a c hs h1 h2, ?_, ?_⟩
  · rw [processChar_semi_Q5 a hs]
  · rw [processChar_newline_Q5 a hs]

theorem C12_expression_accepts_any_witness :
    (feed reset "int x = 1".data).currentState = State.Q5 ∧
    (('=' ≠ ';' → '=' ≠ '\n' →
      processChar (feed reset "int x = 1".data) '=' = feed reset "int x = 1".data) ∧
    (processChar (feed reset "int x = 1".data) ';').currentState = State.Q6 ∧
    (processChar (feed reset "int x = 1".data) '\n').currentState = State.Q_ERROR) :=
  ⟨by decide, C12_expression_accepts_any _ '=' (by decide)⟩

/-- C14: outside an expression an unrecognized character is an error: in each
of `Q0`, `Q1`, `Q2`, `Q3`, `Q4` and `Q6`, a character that is not whitespace,
not in `[A-Za-z0-9_]`, not `;` and not `=` moves the automaton to `Q_ERROR`. -/
theorem C14_unrecognized_is_error (a : DFAAnalyzer) (c : Char)
    (hs : a.currentState = State.Q0 ∨ a.currentState = State.Q1 ∨
      a.currentState = State.Q2 ∨ a.currentState = State.Q3 ∨
      a.currentState = State.Q4 ∨ a.currentState = State.Q6)
    (hw : isWhitespace c = false) (hv : validTypeChars c = false)
    (h1 : c ≠ ';') (h2 : c ≠ '=') :
    (processChar a c).currentState = State.Q_ERROR := by
  rw [processChar_unrecognized a c (by
    rcases hs with h | h | h | h | h | h <;> rw [h] <;> exact ⟨by decide, by decide⟩) hw hv h1 h2]

theorem C14_unrecognized_is_error_witness :
    ((feed reset "int x".data).currentState = State.Q0 ∨
      (feed reset "int x".data).currentState = State.Q1 ∨
      (feed reset "int x".data).currentState = State.Q2 ∨
      (feed reset "int x".data).currentState = State.Q3 ∨
      (feed reset "int x".data).currentState = State.Q4 ∨
      (feed reset "int x".data).currentState = State.Q6) ∧
    isWhitespace '+' = false ∧ validTypeChars '+' = false ∧ '+' ≠ ';' ∧ '+' ≠ '=' ∧
    (processChar (feed reset "int x".data) '+').currentState = State.Q_ERROR :=
  ⟨by decide, by decide, by decide, by decide, by decide,
    C14_unrecognized_is_error _ '+' (by decide) (by decide) (by decide) (by decide)
      (by decide)⟩

/-- C15: in every analyzer reached from the reset state by consuming any
sequence of characters, `currentIdentifier` is non-empty only in `Q3`, `Q4` or
`Q_ERROR`, and in `Q0` and `Q6` both `currentType` and `currentIdentifier` are
empty. -/
theorem C15_accumulators_live_in_range (cs : List Char) :
    ((feed reset cs).currentIdentifier ≠ "" →
      (feed reset cs).currentState = State.Q3 ∨ (feed reset cs).currentState = State.Q4 ∨
        (feed reset cs).currentState = State.Q_ERROR) ∧
    ((feed reset cs).currentState = State.Q0 ∨ (feed reset cs).currentState = State.Q6 →
      (feed reset cs).currentType = "" ∧ (feed reset cs).currentIdentifier = "") :=
  fieldsInv_feed reset cs fieldsInv_reset

/-- C16: one step never removes a name from `declaredVariables` and adds at
most one: either the set is unchanged, or it gains exactly one name, which was
not a member before, and its size grows by exactly one.  This holds in every
analyzer state, reachable or not. -/
theorem C16_declared_grows_by_one (a : DFAAnalyzer) (c : Char) :
    a.declaredVariables ⊆ (processChar a c).declaredVariables ∧
    ((processChar a c).declaredVariables = a.declaredVariables ∨
      ∃ n, n ∉ a.declaredVariables ∧
        (processChar a c).declaredVariables = insert n a.declaredVariables ∧
        (processChar a c).declaredVariables.card = a.declaredVariables.card + 1) := by
  rw [processChar_declared]
  split
  · rename_i h
    exact ⟨Finset.subset_insert _ _,
      Or.inr ⟨a.currentIdentifier, h.2.2, rfl, Finset.card_insert_of_not_mem h.2.2⟩⟩
  · exact ⟨Finset.Subset.refl _, Or.inl rfl⟩

/-- C17: a type may not end directly on `;` or `=`: in `Q1` either character
moves the automaton to `Q_ERROR`; so `int;` and `int=1;` fail with "Syntax
error" at line 1, position 3. -/
theorem C17_type_cannot_end_on_terminator (a : DFAAnalyzer) (c : Char)
    (hs : a.currentState = State.Q1) (hc : c = ';' ∨ c = '=') :
    (processChar a c).currentState = State.Q_ERROR ∧
    scan "int;".data =
      { success := false, message := "Syntax error", line := 1, position := 3,
        duplicateName := "" } ∧
    scan "int=1;".data =
      { success := false, message := "Syntax error", line := 1, position := 3,
        duplicateName := "" } := by
  rw [processChar_term_Q1 a c hs hc]
  exact ⟨rfl, by decide, by decide⟩

theorem C17_type_cannot_end_on_terminator_witness :
    (feed reset "int".data).currentState = State.Q1 ∧ (';' = ';' ∨ ';' = '=') ∧
    ((processChar (feed reset "int".data) ';').currentState = State.Q_ERROR ∧
    scan "int;".data =
      { success := false, message := "Syntax error", line := 1, position := 3,
        duplicateName := "" } ∧
    scan "int=1;".data =
      { success := false, message := "Syntax error", line := 1, position := 3,
        duplicateName := "" }) :=
  ⟨by decide, Or.inl rfl, C17_type_cannot_end_on_terminator _ ';' (by decide) (Or.inl rfl)⟩

/-- C18: a scan from the reset state never returns "Unexpected end of input":
whenever the line loop has passed the first lines `pre` of the input without
returning, be it all lines or the lines before some line, the automaton is in
`Q0`. -/
theorem C18_no_unexpected_end (input : List Char) :
    (scan input).message ≠ "Unexpected end of input" ∧
    ∀ (pre post : List (List Char)) (b : DFAAnalyzer),
      getLines input = pre ++ post →
      scanLines { reset with currentLine := 1 } pre = Except.ok b →
      b.currentState = State.Q0 := by
  refine ⟨?_, fun pre post b _ h => scanLines_ok_state reset 1 reset.currentPos pre b rfl h⟩
  rcases analyze_cases input with ⟨-, ps, e⟩ | ⟨pre, p, c, q, post, -, -, -, -, e⟩ |
      ⟨pre, l, post, -, -, -, -, -, -, e⟩
  · rw [scan, e]
    change "Correct variable declaration" ≠ "Unexpected end of input"
    decide
  · rw [scan, e]
    rcases failAt_message (withCursor (feed reset (unlines pre ++ (p ++ [c]))) (1 + pre.length)
      p.length) with h | h <;> rw [h] <;> decide
  · rw [scan, e]
    change "Missing semicolon at end of line" ≠ "Unexpected end of input"
    decide

/-- C19: a reported duplicate is never spurious.  When a scan from the reset
state returns "Duplicate variable name" with name `n`, then `n` is a word
`[A-Za-z_][A-Za-z0-9_]*`; the input holds lines `pre`, each ended by a line
feed, and then a line `u ++ n ++ c :: q`, the reported line being that line and
the reported position that of `c`, so that the characters right before the
reported position spell `n`; and the text before this occurrence of `n` holds
a committed declaration of `n`: `n` in identifier position, directly followed
by `;` or `=`. -/
theorem C19_duplicate_not_spurious (input : List Char)
    (h : (scan input).message = "Duplicate variable name") :
    IsName (scan input).duplicateName.data ∧
    ∃ (pre : List (List Char)) (u : List Char) (c : Char) (q rest : List Char),
      input = unlines pre ++ (u ++ (scan input).duplicateName.data ++ c :: q) ++ rest ∧
      (rest = [] ∨ ∃ r, rest = '\n' :: r) ∧
      (∀ x ∈ pre, '\n' ∉ x) ∧ '\n' ∉ u ++ (scan input).duplicateName.data ++ c :: q ∧
      (scan input).line = pre.length + 1 ∧
      (scan input).position = (u ++ (scan input).duplicateName.data).length ∧
      CommittedIn (scan input).duplicateName.data (unlines pre ++ u) := by
  rcases analyze_cases input with ⟨-, ps, e⟩ | ⟨pre, p, c, q, post, hg, hpre, h1, h2, e⟩ |
      ⟨pre, l, post, -, -, -, -, -, -, e⟩
  · rw [scan, e] at h
    exact absurd h (by decide : "Correct variable declaration" ≠ "Duplicate variable name")
  · obtain ⟨rest, hin, hrest⟩ := text_of_getLines input pre (p ++ c :: q) post hg
    have hmem : ∀ x ∈ getLines input, '\n' ∉ x :=
      fun x hx hn => (mem_getLines input x '\n' hx hn).2 rfl
    have hnpre : ∀ x ∈ pre, '\n' ∉ x :=
      fun x hx => hmem x (by rw [hg]; exact List.mem_append_left _ hx)
    have hnl : '\n' ∉ p ++ c :: q := hmem _ (by rw [hg]; simp)
    have hnp : '\n' ∉ p := fun hx => hnl (List.mem_append_left _ hx)
    have hd : (feed reset (unlines pre ++ (p ++ [c]))).duplicateVarName ≠ "" := by
      rw [scan, e] at h
      exact (failAt_dup_iff _).2 h |> fun hh => by
        rwa [failAt_duplicateName] at hh
    obtain ⟨ids, w, ty, ws₁, id, hp, hl, hty, hw₁, hne, hid, hname, hcom⟩ :=
      duplicate_origin pre p c hpre hnpre hnp h1 hd
    have hdn : (scan input).duplicateName = String.mk id := by
      rw [scan, e, failAt_duplicateName]
      exact hname
    rw [hdn]
    refine ⟨hid, pre, w ++ ty ++ ws₁, c, q, rest, ?_, hrest, hnpre, ?_, ?_, ?_, hcom⟩
    · rw [hin, hp]
    · rw [← hp]; exact hnl
    · rw [scan, e, failAt_line]; simp [Nat.add_comm]
    · rw [scan, e, failAt_position, ← hp]; rfl
  · rw [scan, e] at h
    exact absurd h
      (by decide : "Missing semicolon at end of line" ≠ "Duplicate variable name")

theorem C19_duplicate_not_spurious_witness :
    (scan "int x;\nint x;\n".data).message = "Duplicate variable name" ∧
    (IsName (scan "int x;\nint x;\n".data).duplicateName.data ∧
    ∃ (pre : List (List Char)) (u : List Char) (c : Char) (q rest : List Char),
      "int x;\nint x;\n".data =
        unlines pre ++ (u ++ (scan "int x;\nint x;\n".data).duplicateName.data ++ c :: q)
          ++ rest ∧
      (rest = [] ∨ ∃ r, rest = '\n' :: r) ∧
      (∀ x ∈ pre, '\n' ∉ x) ∧
      '\n' ∉ u ++ (scan "int x;\nint x;\n".data).duplicateName.data ++ c :: q ∧
      (scan "int x;\nint x;\n".data).line = pre.length + 1 ∧
      (scan "int x;\nint x;\n".data).position =
        (u ++ (scan "int x;\nint x;\n".data).duplicateName.data).length ∧
      CommittedIn (scan "int x;\nint x;\n".data).duplicateName.data (unlines pre ++ u)) :=
  ⟨by decide, C19_duplicate_not_spurious _ (by decide)⟩

/-- C20: one step changes `declaredVariables` only in `Q3` on `;` or `=`; in
every other combination of state and character the set is unchanged.  In `Q4`
the characters `;` and `=` record nothing and clear `currentIdentifier`, so a
declaration written with blanks before its `;` leaves the set as it was:
after `int x ;` the set is empty. -/
theorem C20_declared_changes_only_in_Q3 (a : DFAAnalyzer) (c : Char) :
    (¬(a.currentState = State.Q3 ∧ (c = ';' ∨ c = '=')) →
      (processChar a c).declaredVariables = a.declaredVariables) ∧
    (a.currentState = State.Q4 → (c = ';' ∨ c = '=') →
      (processChar a c).declaredVariables = a.declaredVariables ∧
      (processChar a c).currentIdentifier = "") ∧
    (∀ ty ws₁ id ws₂ : List Char,
      (a.currentState = State.Q0 ∨ a.currentState = State.Q6) →
      a.currentIdentifier = "" → String.mk id ∉ a.declaredVariables →
      IsName ty → Blank ws₁ → ws₁ ≠ [] → IsName id → Blank ws₂ → ws₂ ≠ [] →
      (feed a (ty ++ ws₁ ++ id ++ ws₂ ++ [';'])).currentState = State.Q6 ∧
      (feed a (ty ++ ws₁ ++ id ++ ws₂ ++ [';'])).declaredVariables = a.declaredVariables) ∧
    ((scan "int x ;".data).success = true ∧
      (scanFinal "int x ;".data).declaredVariables = ∅) := by
  refine ⟨fun h => ?_, fun hs hc => ?_, ?_, by decide⟩
  · rw [processChar_declared, if_neg (fun hh => h ⟨hh.1, hh.2.1⟩)]
  · rcases hc with hc | hc <;> subst hc
    · rw [processChar_semi_Q4 a hs]; exact ⟨rfl, rfl⟩
    · rw [processChar_eq_Q4 a hs]; exact ⟨rfl, rfl⟩
  · intro ty ws₁ id ws₂ hs hi hnd hty hw₁ hne hid hw₂ hne₂
    rw [feed_plain a ty ws₁ id ws₂ hs hi hnd hty hw₁ hne hid hw₂]
    exact ⟨rfl, by simp [declaredAfter, hne₂]⟩

end DFA
